import Mathlib

/-!
Verification development for the wefy HTTP client core.

The model below is a shallow embedding of the repository's TypeScript
sources.  JavaScript strings are modelled as `List Char`, JavaScript
objects / `Map`s as association lists in insertion order (an existing key
keeps its position on reassignment, a new key is appended, exactly as the
ECMAScript specification prescribes), and `Array.prototype.sort` — stable
per ES2019 — as an explicit stable insertion sort.  Asynchronous hook
execution is sequential in the source (each handler is awaited before the
next starts), so it is modelled as a fold over the registered extensions.
-/

namespace WefyModel

/-- Whitespace characters removed by JavaScript `String.prototype.trim`
(restricted to the ASCII whitespace that can occur in header values). -/
def isWs (c : Char) : Bool := c = ' ' || c = '\t' || c = '\n' || c = '\r'

/-- Drop leading whitespace. -/
def trimL : List Char → List Char
  | [] => []
  | c :: cs => if isWs c then trimL cs else c :: cs

/-- Drop trailing whitespace. -/
def trimR (l : List Char) : List Char := (trimL l.reverse).reverse

/-- JavaScript `String.prototype.trim`. -/
def trim (l : List Char) : List Char := trimR (trimL l)

/-- JavaScript `String.prototype.split` with a one-character separator:
`"".split(c) = [""]`, and a separator occurrence always opens a new piece. -/
def splitCh (sep : Char) : List Char → List (List Char)
  | [] => [[]]
  | c :: cs =>
    match splitCh sep cs with
    | [] => [[c]]
    | h :: t => if c = sep then [] :: h :: t else (c :: h) :: t

/-- JavaScript `Array.prototype.join` with a separator string
(`[].join(s) = ""`). -/
def interc (sep : List Char) : List (List Char) → List Char
  | [] => []
  | [x] => x
  | x :: y :: xs => x ++ sep ++ interc sep (y :: xs)

/-- JavaScript `String.prototype.startsWith`: first argument is the pattern. -/
def startsW : List Char → List Char → Bool
  | [], _ => true
  | _ :: _, [] => false
  | p :: ps, c :: cs => p = c && startsW ps cs

/-- JavaScript `String.prototype.toLowerCase` (ASCII as used for header
names and values here). -/
def lowerL (l : List Char) : List Char := l.map Char.toLower

/-- JavaScript `String.prototype.includes`. -/
def hasSub (pat : List Char) : List Char → Bool
  | [] => decide (pat = [])
  | c :: cs => startsW pat (c :: cs) || hasSub pat cs

/-- First binding of a key in an association list (JS `Map.prototype.get`
/ property lookup; keys are unique by construction in this model). -/
def lookupA {K V : Type} [DecidableEq K] (m : List (K × V)) (k : K) : Option V :=
  match m with
  | [] => none
  | p :: rest => if p.1 = k then some p.2 else lookupA rest k

/-- Keys of an association list, in order. -/
def keysOf {K V : Type} (m : List (K × V)) : List K := m.map Prod.fst

/-- JS object assignment / `Map.prototype.set`: an existing key keeps its
position and gets the new value, a new key is appended. -/
def upsert {K V : Type} [DecidableEq K] (m : List (K × V)) (k : K) (v : V) : List (K × V) :=
  if (keysOf m).contains k then m.map (fun p => if p.1 = k then (k, v) else p)
  else m ++ [(k, v)]

/-- JS `Object.fromEntries` / `new Map(entries)`: fold the entry list into
an empty object with `upsert`. -/
def fromEntries {K V : Type} [DecidableEq K] (ps : List (K × V)) : List (K × V) :=
  ps.foldl (fun acc p => upsert acc p.1 p.2) []

/-- JS spread `{...o1, ...o2}` / `new Map([...m1, ...m2])`: write every
entry of the second object over the first. -/
def spreadU {K V : Type} [DecidableEq K] (m1 m2 : List (K × V)) : List (K × V) :=
  m2.foldl (fun acc p => upsert acc p.1 p.2) m1

/-- Insert into a sorted list, after every element that compares
less-or-equal first: the insertion step of a stable sort. -/
def sInsert {α : Type} (le : α → α → Bool) (x : α) : List α → List α
  | [] => [x]
  | y :: ys => if le x y then x :: y :: ys else y :: sInsert le x ys

/-- Stable insertion sort.  For a consistent comparator the result of the
(stable, per ES2019) JavaScript `Array.prototype.sort` is the unique
stably-sorted permutation, which this function computes. -/
def sSort {α : Type} (le : α → α → Bool) : List α → List α
  | [] => []
  | x :: xs => sInsert le x (sSort le xs)

/-- Keep the first element of each equivalence class under `key`, in
first-seen order: models a `seen`-set filter over a list. -/
def dedupBy {K B : Type} [DecidableEq B] (key : K → B) (seen : List B) : List K → List K
  | [] => []
  | x :: xs =>
    if seen.contains (key x) then dedupBy key seen xs
    else x :: dedupBy key (key x :: seen) xs

/-- Longest digit prefix of a string together with the rest. -/
def takeDigits : List Char → List Char × List Char
  | [] => ([], [])
  | c :: cs =>
    if c.isDigit then ((takeDigits cs).1.cons c, (takeDigits cs).2)
    else ([], c :: cs)

/-- Numeric value of a digit string. -/
def digitsToNat (l : List Char) : Nat :=
  l.foldl (fun n c => 10 * n + (c.toNat - '0'.toNat)) 0

/-- An exact (unnormalized) rational `num / den` with a positive
denominator: the value of a parsed quality.  The IEEE-754 doubles of the
source are abstracted to exact rationals, which preserves the ordering
comparisons the merge performs on the decimal quality literals headers
carry. -/
structure Q2 where
  num : Int
  den : Nat
  dpos : 0 < den

instance : DecidableEq Q2 := fun a b =>
  decidable_of_iff (a.num = b.num ∧ a.den = b.den)
    (by cases a; cases b; simp)

/-- The default quality 1. -/
def qOne : Q2 := ⟨1, 1, Nat.one_pos⟩

/-- Comparison of two qualities: `a ≤ b` by cross multiplication (the
denominators are positive). -/
def qLeB (a b : Q2) : Bool := decide (a.num * (b.den : Int) ≤ b.num * (a.den : Int))

/-- JavaScript `parseFloat` on the decimal `q=`-values this code feeds it:
leading whitespace skipped, optional sign, digits, optional fraction;
`none` models `NaN`.  The exponent form is not needed by any claim. -/
def parseQ (s : List Char) : Option Q2 :=
  let s1 := trimL s
  let signAndRest : Int × List Char :=
    match s1 with
    | '-' :: rest => (-1, rest)
    | '+' :: rest => (1, rest)
    | _ => (1, s1)
  let ip := takeDigits signAndRest.2
  match ip.2 with
  | '.' :: r2 =>
    let fp := takeDigits r2
    if ip.1 = [] ∧ fp.1 = [] then none
    else some ⟨signAndRest.1 * (digitsToNat ip.1 * 10 ^ fp.1.length + digitsToNat fp.1),
      10 ^ fp.1.length, pow_pos (by decide) _⟩
  | _ =>
    if ip.1 = [] then none
    else some ⟨signAndRest.1 * digitsToNat ip.1, 1, Nat.one_pos⟩

/-- Shorthand for writing JavaScript string literals of the model. -/
def cs (s : String) : List Char := s.toList

/-- A cookie header value is `=`-simple when no `;`-piece holds more than
one `=`: then `split("=", 2)` never truncates a piece, so no parsed value
ends in interior whitespace. -/
def hCookie (s : List Char) : Bool :=
  (splitCh ';' s).all (fun p => (splitCh '=' (trim p)).length ≤ 2)

/-- `HEADER_STRATEGIES.override` of `mergeHeaders` (src/core/utils.ts). -/
def overrideSet : List (List Char) :=
  ["authorization".toList, "content-type".toList, "content-length".toList,
   "content-security-policy".toList, "strict-transport-security".toList,
   "x-frame-options".toList, "x-content-type-options".toList]

/-- `HEADER_STRATEGIES.multiValue` of `mergeHeaders`. -/
def multiValueSet : List (List Char) :=
  ["set-cookie".toList, "www-authenticate".toList, "proxy-authenticate".toList]

/-- `HEADER_STRATEGIES.merge` of `mergeHeaders`. -/
def mergeSet : List (List Char) :=
  ["accept".toList, "accept-encoding".toList, "accept-language".toList,
   "cache-control".toList, "pragma".toList, "vary".toList, "warning".toList,
   "cookie".toList, "link".toList, "access-control-allow-headers".toList,
   "access-control-allow-methods".toList, "access-control-expose-headers".toList]

/-- The three merge strategies of `mergeHeaders`. -/
inductive HStrategy
  | strOverride
  | strMultiValue
  | strMerge
deriving DecidableEq

/-- `getStrategy` of `mergeHeaders`: first classification table that
contains the lower-cased name, `override` for unclassified names. -/
def getStrategy (k : List Char) : HStrategy :=
  if overrideSet.contains k then .strOverride
  else if multiValueSet.contains k then .strMultiValue
  else if mergeSet.contains k then .strMerge
  else .strOverride

/-- The pair list `PARSERS.cookie` builds before `Object.fromEntries`:
split on `;`, trim each piece, `split("=", 2)` (a key and, when a second
`=`-segment exists, its text), drop pairs whose key is empty.  A piece
with no `=` keeps JavaScript's `undefined` value, modelled as `none`. -/
def cookieRawPairs (s : List Char) : List (List Char × Option (List Char)) :=
  (splitCh ';' s).filterMap (fun piece =>
    match splitCh '=' (trim piece) with
    | [] => none
    | k :: rest => if k = [] then none else some (k, rest.head?))

/-- Text a cookie value contributes when re-serialized with a template
string: JavaScript renders `undefined` as the text `undefined`. -/
def valText : Option (List Char) → List Char
  | none => "undefined".toList
  | some v => v

/-- `parse` inside `PARSERS.cookie`: `Object.fromEntries` of the raw pairs
(later occurrences of a key win, the first occurrence keeps the position). -/
def cookieParse (s : List Char) : List (List Char × Option (List Char)) :=
  fromEntries (cookieRawPairs s)

/-- One `key=value` fragment of the re-serialized cookie header. -/
def cookiePair (p : List Char × Option (List Char)) : List Char :=
  p.1 ++ '=' :: valText p.2

/-- `PARSERS.cookie`: union of both parses (request over base), re-joined
with `"; "`. -/
def cookieMerge (base req : List Char) : List Char :=
  interc "; ".toList ((spreadU (cookieParse base) (cookieParse req)).map cookiePair)

/-- Comma-separated items of a header value: split on `,`, trim, drop
empties (`filter(Boolean)`). -/
def listItems (s : List Char) : List (List Char) :=
  ((splitCh ',' s).map trim).filter (fun x => x ≠ [])

/-- The `value` key of an accept item: text before the first `;`, trimmed. -/
def valueOf (item : List Char) : List Char :=
  trim ((splitCh ';' item).headD [])

/-- Quality of an accept item: the first `;`-parameter whose trimmed text
starts with `q=`, its text after the first `=` fed to `parseFloat`,
defaulting to 1 when absent or unparsable (`NaN`). -/
def qualityOf (item : List Char) : Q2 :=
  match (splitCh ';' item).tail.find? (fun p => startsW "q=".toList (trim p)) with
  | none => qOne
  | some qp =>
    match parseQ ((splitCh '=' qp).getD 1 []) with
    | none => qOne
    | some q => q

/-- Map entry `PARSERS.accept` stores for one item: keyed by the item's
value, carrying the quality and the item's original formatting string. -/
def acceptEntry (item : List Char) : List Char × (Q2 × List Char) :=
  (valueOf item, (qualityOf item, item))

/-- `parse` inside `PARSERS.accept`: a `Map` keyed by item value. -/
def acceptParse (s : List Char) : List (List Char × (Q2 × List Char)) :=
  fromEntries ((listItems s).map acceptEntry)

/-- `new Map([...baseMap, ...requestMap])`: request entries override base
entries of the same value. -/
def acceptUnion (base req : List Char) : List (List Char × (Q2 × List Char)) :=
  spreadU (acceptParse base) (acceptParse req)

/-- Comparator of `PARSERS.accept`'s sort, `(a, b) => b.quality - a.quality`,
as the before-or-equal relation of the stable sort it induces. -/
def qLe (x y : List Char × (Q2 × List Char)) : Bool := qLeB y.2.1 x.2.1

/-- The merged accept entries sorted by descending quality (stable). -/
def acceptSorted (base req : List Char) : List (List Char × (Q2 × List Char)) :=
  sSort qLe (acceptUnion base req)

/-- `PARSERS.accept`: sorted originals re-joined with `", "`. -/
def acceptMerge (base req : List Char) : List Char :=
  interc ", ".toList ((acceptSorted base req).map (fun e => e.2.2))

/-- `PARSERS.default`: items of base then request, first occurrence per
lower-cased item kept, re-joined with `", "`. -/
def defaultMerge (base req : List Char) : List Char :=
  interc ", ".toList (dedupBy lowerL [] (listItems base ++ listItems req))

/-- `mergeValues` of `mergeHeaders`: `cookie` exactly goes to the cookie
combinator, names starting with `accept` to the accept combinator, the
rest to the default comma-list combinator. -/
def mergeValues (base req k : List Char) : List Char :=
  if k = "cookie".toList then cookieMerge base req
  else if startsW "accept".toList k then acceptMerge base req
  else defaultMerge base req

/-- JavaScript truthiness of an optional header value: an absent header
and an empty string are both falsy. -/
def truthy : Option (List Char) → Option (List Char)
  | none => none
  | some s => if s = [] then none else some s

/-- Value `mergeHeaders` stores for one lower-cased name: the branch on
`baseValue && requestValue` / `baseValue` / `requestValue` of the source,
with the two `append` calls of the multiValue branch modelled by the
combined `", "`-joined value `Headers.prototype.get` would report. -/
def hdrValue (base req : List (List Char × List Char)) (k : List Char) :
    Option (List Char) :=
  match truthy (lookupA base k), truthy (lookupA req k) with
  | some bv, some rv =>
    match getStrategy k with
    | .strOverride => some rv
    | .strMultiValue => some (bv ++ ", ".toList ++ rv)
    | .strMerge => some (mergeValues bv rv k)
  | some bv, none => some bv
  | none, some rv => some rv
  | none, none => none

/-- `mergeHeaders` (src/core/utils.ts) on header sets already in `Headers`
normal form: lower-cased, duplicate-free names in insertion order.  The
`allKeys` set holds base names then request-only names; a name both of
whose values are falsy is never set on the result. -/
def mergeHeadersModel (base req : List (List Char × List Char)) :
    List (List Char × List Char) :=
  (dedupBy id [] (keysOf base ++ keysOf req)).filterMap
    (fun k => (hdrValue base req k).map (fun v => (k, v)))

/-- An extension as `executeHook` sees it for one hook execution
(src/extension/manager.ts; the file is checked into the repository in
commented-out form and is embedded from that text).  `priority` is
`none` when the descriptor omits it (`ext.priority || 0` then yields 0),
`hasHook` says whether the descriptor declares a handler for the hook
being executed, and `hookResult` abstracts awaiting that handler:
`none` for success, `some msg` when it throws an error with that
message. -/
structure WExt where
  name : String
  priority : Option Int
  critical : Bool
  hasHook : Bool
  hookResult : Option String
deriving DecidableEq

/-- Effective priority `ext.priority || 0`. -/
def effP (e : WExt) : Int := e.priority.getD 0

/-- The order induced by the comparator
`([, extA], [, extB]) => (extB.priority || 0) - (extA.priority || 0)`:
`a` may come before `b` when the comparator does not require a swap. -/
def pLe (a b : WExt) : Bool := decide (effP b ≤ effP a)

/-- The `sortedExtensions` array of `executeHook`: registered extensions
(Map insertion order = registration order) stably sorted by descending
effective priority. -/
def sortedExtensions (exts : List WExt) : List WExt := sSort pLe exts

/-- The loop of `executeHook` over the sorted extensions: returns the
names of the handlers that were started, in order, and the recorded
`{name, error}` failures, in order.  An extension without a declared
handler is skipped; a throwing handler of a critical extension aborts
the loop (`abortController.abort()` then `if (aborted) break`), a
throwing handler of a non-critical extension records the failure and
continues. -/
def execSteps : List WExt → List String × List (String × String)
  | [] => ([], [])
  | e :: rest =>
    if e.hasHook then
      match e.hookResult with
      | none => ((execSteps rest).1.cons e.name, (execSteps rest).2)
      | some msg =>
        if e.critical then ([e.name], [(e.name, msg)])
        else (e.name :: (execSteps rest).1, (e.name, msg) :: (execSteps rest).2)
    else execSteps rest

/-- The `extensionName: message` listing of the aggregate error message. -/
def errText (errs : List (String × String)) : String :=
  String.intercalate ", " (errs.map (fun p => p.1 ++ ": " ++ p.2))

/-- `executeHook`: run every declared handler in priority order; fail with
the aggregate extension error when any failure was recorded, succeed
otherwise.  The returned list is the trace of started handlers. -/
def executeHook (hookName : String) (exts : List WExt) : Except String (List String) :=
  let r := execSteps (sortedExtensions exts)
  if r.2 = [] then Except.ok r.1
  else Except.error ("Hook " ++ hookName ++ " errors: " ++ errText r.2)

/-- An extension whose handler both exists, throws and is critical: the
only kind that halts the `executeHook` loop. -/
def stops (e : WExt) : Bool := e.hasHook && e.critical && e.hookResult.isSome

/-- Failures a stretch of non-halting extensions records. -/
def errList (l : List WExt) : List (String × String) :=
  l.filterMap (fun e => if e.hasHook then e.hookResult.map (fun m => (e.name, m)) else none)

/-- Errors `registerExtensions` can raise during validation: a missing or
blank name, or a duplicated name (`createExtensionError` tagged with the
offending extension's name). -/
inductive RegError
  | emptyName
  | dup (name : String)
deriving DecidableEq

/-- The validation loop of `registerExtensions`: every name must be
non-blank, and no name may repeat (a `names` set accumulates the names
seen so far).  Returns the first error, if any. -/
def validateExtensions (seen : List String) : List WExt → Option RegError
  | [] => none
  | e :: rest =>
    if trim e.name.toList = [] then some .emptyName
    else if seen.contains e.name then some (.dup e.name)
    else validateExtensions (e.name :: seen) rest

/-- `registerExtensions`: validate the whole list first; only when
validation passes is any extension stored in the `extensions` map
(name-keyed, insertion order). -/
def registerExtensions (exts : List WExt) : Except RegError (List (String × WExt)) :=
  match validateExtensions [] exts with
  | some err => Except.error err
  | none => Except.ok (exts.map (fun e => (e.name, e)))

/-- `extend`: concatenate the current extensions with the additional ones
and build a fresh manager, re-running `registerExtensions` on the
concatenation. -/
def extendManager (current : List (String × WExt)) (additional : List WExt) :
    Except RegError (List (String × WExt)) :=
  registerExtensions (current.map Prod.snd ++ additional)

/-- `mergeExtensions` (src/extension/utils.ts): a name-keyed map filled
with the base extensions then the additional ones, so a later extension
of the same name overrides the earlier one; returns the values. -/
def mergeExtensions (base additional : List WExt) : List WExt :=
  (fromEntries ((base ++ additional).map (fun e => (e.name, e)))).map Prod.snd

/-- A transport response as the client inspects it: status, declared
content type and a body (already-read text; decoding is modelled by
tagging, see `ParsedData`). -/
structure MResponse where
  status : Nat
  contentType : Option String
  body : String
deriving DecidableEq

/-- `Response.ok` of fetch: status in the 2xx range. -/
def respOk (r : MResponse) : Bool := 200 ≤ r.status && r.status ≤ 299

/-- `contentType?.includes(pat)` — false when the header is absent. -/
def ctIncludes (r : MResponse) (pat : String) : Bool :=
  match r.contentType with
  | none => false
  | some ct => hasSub pat.toList ct.toList

/-- What a request resolves with, by decoding strategy: `undef` models
resolving with `undefined`, `json`/`text` a body decoded by that codec,
`raw` the un-decoded `Response` object itself, `blob` a binary body. -/
inductive ParsedData
  | undef
  | json (body : String)
  | text (body : String)
  | raw (r : MResponse)
  | blob (body : String)
deriving DecidableEq

/-- `parseResponse` of the first `Wefy` variant (src/core/wefy.ts):
`HEAD` and `OPTIONS` resolve `undefined` before any content-type
inspection; otherwise decode by content type, returning the raw response
when neither JSON nor text matches. -/
def parseResponseV1 (method : String) (r : MResponse) : ParsedData :=
  if method = "HEAD" || method = "OPTIONS" then .undef
  else if ctIncludes r "application/json" then .json r.body
  else if ctIncludes r "text/" then .text r.body
  else .raw r

/-- `unwrapResponseData` of the second `Wefy` variant: `HEAD` or a 204
status resolves `undefined`; otherwise decode by content type, falling
back to `blob`.  `OPTIONS` is not special-cased here. -/
def unwrapResponseDataV2 (method : String) (r : MResponse) : ParsedData :=
  if method = "HEAD" || r.status = 204 then .undef
  else if ctIncludes r "application/json" then .json r.body
  else if ctIncludes r "text/" then .text r.body
  else .blob r.body

/-- What a call of the first variant resolves with: a freshly parsed
body, or — on a GET cache hit — the `Response` object retained from an
earlier call, returned unparsed (`this.cache.get(url) as Response`). -/
inductive V1Out
  | parsed (d : ParsedData)
  | cachedResp (r : MResponse)
deriving DecidableEq

/-- The fetch-and-parse path of `Wefy.request` (first variant): call the
transport once, fail on a non-ok response, store an ok GET response in
the cache, parse.  Returns the outcome, the cache afterwards and the
number of transport invocations this call performed. -/
def requestFetchV1 (fetchFn : String → MResponse) (cache : List (String × MResponse))
    (method url : String) :
    Except String V1Out × List (String × MResponse) × Nat :=
  let r := fetchFn url
  if respOk r then
    let cache2 := if method = "GET" then upsert cache url r else cache
    (Except.ok (V1Out.parsed (parseResponseV1 method r)), cache2, 1)
  else (Except.error "Request failed", cache, 1)

/-- `Wefy.request` (first variant) after URL resolution: a GET whose
resolved URL is in the cache resolves immediately from the cached
response without touching the transport; anything else goes to the
fetch-and-parse path. -/
def requestV1 (fetchFn : String → MResponse) (cache : List (String × MResponse))
    (method url : String) :
    Except String V1Out × List (String × MResponse) × Nat :=
  if method = "GET" then
    match lookupA cache url with
    | some r => (Except.ok (V1Out.cachedResp r), cache, 0)
    | none => requestFetchV1 fetchFn cache method url
  else requestFetchV1 fetchFn cache method url

/-- `Wefy.makeRequest` (second variant): no cache exists; every call
invokes the transport exactly once and parses or fails. -/
def requestV2 (fetchFn : String → MResponse) (method url : String) :
    Except String ParsedData × Nat :=
  let r := fetchFn url
  if respOk r then (Except.ok (unwrapResponseDataV2 method r), 1)
  else (Except.error "HTTP Error", 1)

/-- Fixture: a critical extension of priority 2 whose handler throws. -/
def extA : WExt := ⟨"a", some 2, true, true, some "boom"⟩

/-- Fixture: a non-critical extension of priority 1 whose handler succeeds. -/
def extB : WExt := ⟨"b", some 1, false, true, none⟩

/-- Fixture: a non-critical extension without a priority whose handler throws. -/
def extX : WExt := ⟨"x", none, false, true, some "e1"⟩

/-- Fixture: a non-critical extension without a priority whose handler succeeds. -/
def extY : WExt := ⟨"y", none, false, true, none⟩

theorem sInsert_perm {α : Type} (le : α → α → Bool) (x : α) (l : List α) :
    (sInsert le x l).Perm (x :: l) := by
  induction l with
  | nil => exact List.Perm.refl _
  | cons y ys ih =>
    rw [sInsert]
    by_cases h : le x y
    · rw [if_pos h]
    · rw [if_neg h]
      exact (ih.cons y).trans (List.Perm.swap x y ys)

theorem sSort_perm {α : Type} (le : α → α → Bool) (l : List α) :
    (sSort le l).Perm l := by
  induction l with
  | nil => exact List.Perm.refl _
  | cons x xs ih => exact (sInsert_perm le x (sSort le xs)).trans (ih.cons x)

theorem sInsert_pairwise {α : Type} {le : α → α → Bool}
    (htot : ∀ a b, le a b = true ∨ le b a = true)
    (htrans : ∀ a b c, le a b = true → le b c = true → le a c = true)
    (x : α) {l : List α} (h : l.Pairwise (fun a b => le a b = true)) :
    (sInsert le x l).Pairwise (fun a b => le a b = true) := by
  induction l with
  | nil => simp [sInsert]
  | cons y ys ih =>
    rw [List.pairwise_cons] at h
    rw [sInsert]
    by_cases hxy : le x y
    · rw [if_pos hxy, List.pairwise_cons]
      refine ⟨?_, List.pairwise_cons.mpr h⟩
      intro z hz
      rcases List.mem_cons.mp hz with hz | hz
      · subst hz
        exact hxy
      · exact htrans x y z hxy (h.1 z hz)
    · rw [if_neg hxy, List.pairwise_cons]
      refine ⟨?_, ih h.2⟩
      intro z hz
      rcases List.mem_cons.mp ((sInsert_perm le x ys).mem_iff.mp hz) with hz | hz
      · subst hz
        rcases htot z y with hzy | hyz
        · exact absurd hzy hxy
        · exact hyz
      · exact h.1 z hz

theorem sSort_pairwise {α : Type} {le : α → α → Bool}
    (htot : ∀ a b, le a b = true ∨ le b a = true)
    (htrans : ∀ a b c, le a b = true → le b c = true → le a c = true)
    (l : List α) : (sSort le l).Pairwise (fun a b => le a b = true) := by
  induction l with
  | nil => simp [sSort]
  | cons x xs ih => exact sInsert_pairwise htot htrans x ih

theorem sSort_of_pairwise {α : Type} {le : α → α → Bool} {l : List α}
    (h : l.Pairwise (fun a b => le a b = true)) : sSort le l = l := by
  induction l with
  | nil => rfl
  | cons x xs ih =>
    rw [List.pairwise_cons] at h
    rw [sSort, ih h.2]
    cases xs with
    | nil => rfl
    | cons y ys => rw [sInsert, if_pos (h.1 y (by simp))]

theorem sInsert_filter_key_pos {α β : Type} [LinearOrder β] (key : α → β)
    (x : α) (l : List α) (p : β) (hx : key x = p) :
    (sInsert (fun a b => decide (key b ≤ key a)) x l).filter (fun e => decide (key e = p))
      = x :: l.filter (fun e => decide (key e = p)) := by
  induction l with
  | nil => simp [sInsert, hx]
  | cons y ys ih =>
    rw [sInsert]
    by_cases h : key y ≤ key x
    · rw [if_pos (by simpa using h)]
      simp [hx]
    · rw [if_neg (by simpa using h)]
      have hy : ¬ key y = p := by
        intro hyp
        exact h (by rw [hyp, ← hx])
      rw [List.filter_cons, List.filter_cons]
      simp only [hy, decide_eq_true_eq, if_false, decide_eq_false_iff_not]
      simpa [hy] using ih

theorem sInsert_filter_key_neg {α β : Type} [DecidableEq β] (key : α → β)
    (le : α → α → Bool) (x : α) (l : List α) (p : β) (hx : key x ≠ p) :
    (sInsert le x l).filter (fun e => decide (key e = p))
      = l.filter (fun e => decide (key e = p)) := by
  induction l with
  | nil => simp [sInsert, hx]
  | cons y ys ih =>
    rw [sInsert]
    by_cases h : le x y
    · rw [if_pos h, List.filter_cons]
      simp [hx]
    · rw [if_neg h, List.filter_cons, List.filter_cons]
      rw [ih]

theorem sSort_filter_key {α β : Type} [LinearOrder β] (key : α → β)
    (l : List α) (p : β) :
    (sSort (fun a b => decide (key b ≤ key a)) l).filter (fun e => decide (key e = p))
      = l.filter (fun e => decide (key e = p)) := by
  induction l with
  | nil => rfl
  | cons x xs ih =>
    rw [sSort]
    by_cases hx : key x = p
    · rw [sInsert_filter_key_pos key x _ p hx, ih, List.filter_cons]
      simp [hx]
    · rw [sInsert_filter_key_neg key _ x _ p hx, ih, List.filter_cons]
      simp [hx]

theorem execSteps_trace_sublist (l : List WExt) :
    ((execSteps l).1).Sublist ((l.filter (fun e => e.hasHook)).map WExt.name) := by
  induction l with
  | nil => simp [execSteps]
  | cons e rest ih =>
    by_cases he : e.hasHook
    · cases hr : e.hookResult with
      | none =>
        simp only [execSteps, he, hr, if_true, List.filter_cons, List.map_cons]
        exact ih.cons₂ e.name
      | some msg =>
        by_cases hc : e.critical
        · simp only [execSteps, he, hr, hc, if_true, List.filter_cons, List.map_cons]
          exact (List.nil_sublist _).cons₂ e.name
        · simp only [execSteps, he, hr, hc, if_true, if_false, Bool.false_eq_true,
            List.filter_cons, List.map_cons]
          exact ih.cons₂ e.name
    · simp only [execSteps, he, if_false, Bool.false_eq_true, List.filter_cons,
        Bool.not_eq_true]
      simpa [he] using ih

theorem execSteps_trace_of_no_stops (l : List WExt)
    (h : ∀ e ∈ l, stops e = false) :
    (execSteps l).1 = (l.filter (fun e => e.hasHook)).map WExt.name := by
  induction l with
  | nil => simp [execSteps]
  | cons e rest ih =>
    have hrest : ∀ x ∈ rest, stops x = false := fun x hx => h x (by simp [hx])
    by_cases he : e.hasHook
    · cases hr : e.hookResult with
      | none =>
        simp only [execSteps, he, hr, if_true, List.filter_cons, List.map_cons]
        simp [ih hrest]
      | some msg =>
        have hc : e.critical = false := by
          have hstop := h e (by simp)
          simp [stops, he, hr] at hstop
          exact hstop
        simp only [execSteps, he, hr, hc, if_true, List.filter_cons, List.map_cons,
          if_false, Bool.false_eq_true]
        simp [ih hrest]
    · simp only [execSteps, he, if_false, Bool.false_eq_true, List.filter_cons]
      simpa [he] using ih hrest

/-- C1: for every list of registered extensions, the execution order
`executeHook` uses is a permutation of the registration order that is
sorted by descending effective priority (`priority || 0`), preserves the
registration order inside every equal-priority class (the sort is
stable), and the handlers actually started form a subsequence of the
declared handlers in exactly that order — the whole sequence when no
critical handler throws. -/
theorem execute_invokes_in_stable_descending_priority_order (exts : List WExt) :
    (sortedExtensions exts).Perm exts
    ∧ (sortedExtensions exts).Pairwise (fun a b => effP b ≤ effP a)
    ∧ (∀ p : Int, (sortedExtensions exts).filter (fun e => decide (effP e = p))
        = exts.filter (fun e => decide (effP e = p)))
    ∧ ((execSteps (sortedExtensions exts)).1).Sublist
        (((sortedExtensions exts).filter (fun e => e.hasHook)).map WExt.name)
    ∧ ((∀ e ∈ sortedExtensions exts, stops e = false) →
        (execSteps (sortedExtensions exts)).1
          = ((sortedExtensions exts).filter (fun e => e.hasHook)).map WExt.name) := by
  refine ⟨sSort_perm pLe exts, ?_, ?_, execSteps_trace_sublist _,
    execSteps_trace_of_no_stops _⟩
  · have h := @sSort_pairwise WExt pLe
      (fun a b => by
        rcases le_total (effP b) (effP a) with h | h
        · exact Or.inl (by simpa [pLe] using h)
        · exact Or.inr (by simpa [pLe] using h))
      (fun a b c hab hbc => by
        simp only [pLe, decide_eq_true_eq] at hab hbc ⊢
        exact le_trans hbc hab) exts
    exact h.imp (fun hab => by simpa [pLe] using hab)
  · intro p
    exact sSort_filter_key effP exts p

theorem execSteps_halt_mem (l₁ l₂ : List WExt) (c : WExt) (hc : stops c = true) :
    ∀ n ∈ (execSteps (l₁ ++ c :: l₂)).1, n ∈ (l₁.map WExt.name) ++ [c.name] := by
  induction l₁ with
  | nil =>
    have hc' := hc
    simp only [stops, Bool.and_eq_true] at hc'
    obtain ⟨⟨hhook, hcrit⟩, hsome⟩ := hc'
    rcases hr : c.hookResult with _ | msg
    · simp [stops, hhook, hcrit, hr] at hc
    · intro n hn
      simp only [List.nil_append, execSteps, hhook, hr, hcrit, if_true] at hn
      simpa using hn
  | cons e l₁' ih =>
    intro n hn
    by_cases he : e.hasHook
    · rcases hr : e.hookResult with _ | msg
      · simp only [List.cons_append, execSteps, he, hr, if_true] at hn
        rcases List.mem_cons.mp hn with hn | hn
        · simp [hn]
        · have htail := ih n hn
          simpa [List.mem_cons] using Or.inr (by simpa using htail)
      · by_cases hcr : e.critical
        · simp only [List.cons_append, execSteps, he, hr, hcr, if_true] at hn
          simp only [List.mem_singleton] at hn
          simp [hn]
        · simp only [List.cons_append, execSteps, he, hr, hcr, if_true, if_false,
            Bool.false_eq_true] at hn
          rcases List.mem_cons.mp hn with hn | hn
          · simp [hn]
          · have htail := ih n hn
            simpa [List.mem_cons] using Or.inr (by simpa using htail)
    · simp only [List.cons_append, execSteps, he, if_false, Bool.false_eq_true] at hn
      have htail := ih n hn
      simpa [List.mem_cons] using Or.inr (by simpa using htail)

/-- C2: once a critical extension's handler has thrown inside one
`executeHook` call, no extension later in the execution order has its
handler started in that call: every name the trace contains comes from
the critical extension or one before it, so — the registered names being
distinct — nothing after the critical extension appears in the trace. -/
theorem critical_failure_halts_rest (exts l₁ l₂ : List WExt) (c : WExt) (m : String)
    (hnames : (exts.map WExt.name).Nodup)
    (hs : sortedExtensions exts = l₁ ++ c :: l₂)
    (hcrit : c.critical = true) (hhook : c.hasHook = true)
    (hthrow : c.hookResult = some m) :
    ∀ e ∈ l₂, e.name ∉ (execSteps (sortedExtensions exts)).1 := by
  intro e he hmem
  rw [hs] at hmem
  have hstops : stops c = true := by simp [stops, hcrit, hhook, hthrow]
  have h1 := execSteps_halt_mem l₁ l₂ c hstops _ hmem
  have hperm : ((l₁ ++ c :: l₂).map WExt.name).Perm (exts.map WExt.name) := by
    rw [← hs]
    exact (sSort_perm pLe exts).map WExt.name
  have hnd : ((l₁ ++ c :: l₂).map WExt.name).Nodup := hperm.nodup_iff.mpr hnames
  rw [List.map_append, List.map_cons] at hnd
  have hdisj := List.disjoint_of_nodup_append hnd
  have hnd2 := hnd.of_append_right
  have hmem2 : e.name ∈ c.name :: l₂.map WExt.name := by
    simp only [List.mem_cons]
    exact Or.inr (List.mem_map_of_mem WExt.name he)
  rcases List.mem_append.mp h1 with h1 | h1
  · exact hdisj h1 hmem2
  · rw [List.mem_singleton] at h1
    rw [List.nodup_cons] at hnd2
    exact hnd2.1 (h1 ▸ List.mem_map_of_mem WExt.name he)

/-- Witness for C2 at a concrete input: with the critical extension `a`
(priority 2) throwing, the lower-priority extension `b` is never
started. -/
theorem critical_failure_halts_rest_witness :
    "b" ∉ (execSteps (sortedExtensions [extA, extB])).1 := by
  have h := critical_failure_halts_rest [extA, extB] [] [extB] extA "boom"
    (by decide) (by decide) (by decide) (by decide) (by decide) extB (by simp)
  simpa [extB] using h

theorem execSteps_append_no_stops (l₁ l₂ : List WExt)
    (h : ∀ e ∈ l₁, stops e = false) :
    execSteps (l₁ ++ l₂)
      = ((l₁.filter (fun e => e.hasHook)).map WExt.name ++ (execSteps l₂).1,
         errList l₁ ++ (execSteps l₂).2) := by
  induction l₁ with
  | nil => simp [errList]
  | cons e l₁' ih =>
    have hrest : ∀ x ∈ l₁', stops x = false := fun x hx => h x (by simp [hx])
    have hih := ih hrest
    by_cases he : e.hasHook
    · rcases hr : e.hookResult with _ | msg
      · simp only [List.cons_append, execSteps, he, hr, if_true, hih]
        simp [errList, he, hr, hih]
      · have hcr : e.critical = false := by
          have hstop := h e (by simp)
          simp [stops, he, hr] at hstop
          exact hstop
        simp only [List.cons_append, execSteps, he, hr, hcr, if_true, if_false,
          Bool.false_eq_true, hih]
        simp [errList, he, hr, hih]
    · simp only [List.cons_append, execSteps, he, if_false, Bool.false_eq_true, hih]
      simp [errList, he, hih]

/-- C3: when the handler of a non-critical extension `n` throws during
one `executeHook` call (every extension before `n` in the execution
order being non-halting), every extension after `n` still runs exactly
as it otherwise would; every failure is recorded as its
`(extensionName, message)` pair in execution order; the call fails with
the single aggregate error message listing every `name: message` pair;
and in general a call succeeds exactly when no started handler failed. -/
theorem noncritical_failure_isolated (hookName : String) (exts l₁ l₂ : List WExt)
    (n : WExt) (m : String)
    (hs : sortedExtensions exts = l₁ ++ n :: l₂)
    (hsafe : ∀ e ∈ l₁, stops e = false)
    (hhook : n.hasHook = true) (hncrit : n.critical = false)
    (hthrow : n.hookResult = some m) :
    (execSteps (sortedExtensions exts)).1
        = (l₁.filter (fun e => e.hasHook)).map WExt.name ++ n.name :: (execSteps l₂).1
    ∧ (execSteps (sortedExtensions exts)).2
        = errList l₁ ++ (n.name, m) :: (execSteps l₂).2
    ∧ executeHook hookName exts
        = Except.error ("Hook " ++ hookName ++ " errors: "
            ++ errText (errList l₁ ++ (n.name, m) :: (execSteps l₂).2))
    ∧ (∀ hn : String, ∀ es : List WExt,
        (∃ t, executeHook hn es = Except.ok t)
          ↔ (execSteps (sortedExtensions es)).2 = []) := by
  have hn2 : execSteps (n :: l₂)
      = (n.name :: (execSteps l₂).1, (n.name, m) :: (execSteps l₂).2) := by
    simp [execSteps, hhook, hthrow, hncrit]
  have hsplit := execSteps_append_no_stops l₁ (n :: l₂) hsafe
  rw [hn2] at hsplit
  refine ⟨?_, ?_, ?_, ?_⟩
  · rw [hs, hsplit]
  · rw [hs, hsplit]
  · rw [executeHook, hs, hsplit]
    simp
  · intro hn es
    rw [executeHook]
    by_cases hz : (execSteps (sortedExtensions es)).2 = []
    · simp [hz]
    · simp [hz]

/-- Witness for C3 at a concrete input: `x` (non-critical) throws `e1`,
`y` still runs, and the call fails with the aggregate message naming the
failure. -/
theorem noncritical_failure_isolated_witness :
    (execSteps (sortedExtensions [extX, extY])).1 = ["x", "y"]
    ∧ executeHook "beforeRequest" [extX, extY]
        = Except.error "Hook beforeRequest errors: x: e1" := by
  have h := noncritical_failure_isolated "beforeRequest" [extX, extY] [] [extY]
    extX "e1" (by decide) (by decide) (by decide) (by decide) (by decide)
  refine ⟨?_, ?_⟩
  · rw [h.1]
    decide
  · rw [h.2.2.1]
    simp only [Except.error.injEq]
    decide

theorem validate_dup (exts : List WExt) :
    ∀ seen : List String,
    (∀ e ∈ exts, trim e.name.toList ≠ []) →
    ¬ (seen.reverse ++ exts.map WExt.name).Nodup →
    seen.Nodup →
    ∃ d, validateExtensions seen exts = some (RegError.dup d)
      ∧ d ∈ exts.map WExt.name := by
  induction exts with
  | nil =>
    intro seen _ hdup hseen
    exact absurd (by simpa using List.nodup_reverse.mpr hseen) hdup
  | cons e rest ih =>
    intro seen hvalid hdup hseen
    have hname : trim e.name.toList ≠ [] := hvalid e (by simp)
    by_cases hc : seen.contains e.name
    · refine ⟨e.name, ?_, by simp⟩
      rw [validateExtensions, if_neg hname, if_pos hc]
    · have hnotmem : e.name ∉ seen := by simpa using hc
      have hdup2 : ¬ ((e.name :: seen).reverse ++ rest.map WExt.name).Nodup := by
        intro hnd
        apply hdup
        rw [List.map_cons]
        have : (e.name :: seen).reverse ++ rest.map WExt.name
            = seen.reverse ++ e.name :: rest.map WExt.name := by
          simp [List.reverse_cons, List.append_assoc]
        rw [this] at hnd
        exact hnd
      obtain ⟨d, hv, hm⟩ := ih (e.name :: seen)
        (fun x hx => hvalid x (by simp [hx]))
        hdup2 (List.nodup_cons.mpr ⟨hnotmem, hseen⟩)
      refine ⟨d, ?_, by simp [hm]⟩
      rw [validateExtensions, if_neg hname, if_neg hc]
      exact hv

/-- C7: a list containing two extensions with the same name (all names
being non-blank) is rejected by `registerExtensions` with the duplicate
error carrying an offending extension's name, and no registry is ever
produced from it — registration throws during the validation pass,
before the storage loop and before any hook can run. -/
theorem duplicate_name_registration_fails (exts : List WExt)
    (hvalid : ∀ e ∈ exts, trim e.name.toList ≠ [])
    (hdup : ¬ (exts.map WExt.name).Nodup) :
    ∃ d, registerExtensions exts = Except.error (RegError.dup d)
      ∧ d ∈ exts.map WExt.name
      ∧ ∀ stored, registerExtensions exts ≠ Except.ok stored := by
  obtain ⟨d, hv, hm⟩ := validate_dup exts [] hvalid (by simpa using hdup) List.nodup_nil
  refine ⟨d, ?_, hm, ?_⟩
  · rw [registerExtensions, hv]
  · intro stored h
    rw [registerExtensions, hv] at h
    cases h

/-- Witness for C7 at a concrete input: registering two extensions both
named `x` fails with the duplicate error and stores nothing. -/
theorem duplicate_name_registration_fails_witness :
    ∃ d, registerExtensions [extX, extX] = Except.error (RegError.dup d)
      ∧ d ∈ [extX, extX].map WExt.name
      ∧ ∀ stored, registerExtensions [extX, extX] ≠ Except.ok stored :=
  duplicate_name_registration_fails [extX, extX] (by decide) (by decide)

/-- C8: at the failing input — a registry already holding an extension
named `a`, extended with another extension named `a` — `extend` fails
with the duplicate-name error instead of overriding, while the
documented `mergeExtensions` helper of src/extension/utils.ts (which
`extend` does not call) produces the union in which the newer `a`
overrides the older one. -/
theorem extend_shared_name_errors_but_merge_overrides :
    extendManager [("a", ⟨"a", some 1, false, true, none⟩)]
        [⟨"a", some 2, false, true, none⟩]
      = Except.error (RegError.dup "a")
    ∧ mergeExtensions [⟨"a", some 1, false, true, none⟩]
        [⟨"a", some 2, false, true, none⟩]
      = [⟨"a", some 2, false, true, none⟩] := by
  constructor
  · rfl
  · rfl

/-- C9 (amended): the first `Wefy` variant keeps a GET response cache:
a GET whose resolved URL is cached resolves from the retained response
with zero transport invocations; any other call — GET cache miss or
non-GET — invokes the transport exactly once, and only an ok GET
response is stored; the second variant has no cache and every call
invokes the transport exactly once. -/
theorem core_get_cache_and_transport_counts (fetchFn : String → MResponse)
    (cache : List (String × MResponse)) (method url : String) :
    (∀ r, method = "GET" → lookupA cache url = some r →
        requestV1 fetchFn cache method url = (Except.ok (V1Out.cachedResp r), cache, 0))
    ∧ (method = "GET" → lookupA cache url = none →
        (requestV1 fetchFn cache method url).2.2 = 1
        ∧ (respOk (fetchFn url) = true →
            (requestV1 fetchFn cache method url).2.1 = upsert cache url (fetchFn url)))
    ∧ (method ≠ "GET" →
        (requestV1 fetchFn cache method url).2.2 = 1
        ∧ (requestV1 fetchFn cache method url).2.1 = cache)
    ∧ (requestV2 fetchFn method url).2 = 1 := by
  refine ⟨?_, ?_, ?_, ?_⟩
  · intro r hm hl
    rw [requestV1, if_pos hm, hl]
  · intro hm hl
    rw [requestV1, if_pos hm, hl]
    constructor
    · rw [requestFetchV1]
      by_cases hok : respOk (fetchFn url)
      · simp [hok]
      · simp [hok]
    · intro hok
      rw [requestFetchV1]
      simp [hok, hm]
  · intro hm
    rw [requestV1, if_neg hm, requestFetchV1]
    by_cases hok : respOk (fetchFn url)
    · simp [hok, hm]
    · simp [hok]
  · rw [requestV2]
    by_cases hok : respOk (fetchFn url)
    · simp [hok]
    · simp [hok]

/-- Witness for C9 at a concrete input: a GET cache hit performs zero
transport invocations and resolves from the retained response. -/
theorem core_get_cache_and_transport_counts_witness :
    requestV1 (fun _ => ⟨200, some "application/json", "ok"⟩)
        [("u", ⟨200, some "application/json", "ok"⟩)] "GET" "u"
      = (Except.ok (V1Out.cachedResp ⟨200, some "application/json", "ok"⟩),
         [("u", ⟨200, some "application/json", "ok"⟩)], 0) :=
  (core_get_cache_and_transport_counts (fun _ => ⟨200, some "application/json", "ok"⟩)
      [("u", ⟨200, some "application/json", "ok"⟩)] "GET" "u").1
    ⟨200, some "application/json", "ok"⟩ rfl rfl

/-- C9 counterexample: the claim says every call invokes the transport
exactly once and never resolves from a retained response; but after one
ok GET of `u`, a second GET of `u` performs zero transport invocations
and resolves with the `Response` object retained by the core from the
first call. -/
theorem repeated_get_resolves_from_core_cache :
    (requestV1 (fun _ => ⟨200, some "application/json", "ok"⟩)
        ((requestV1 (fun _ => ⟨200, some "application/json", "ok"⟩) [] "GET" "u").2.1)
        "GET" "u").2.2 = 0
    ∧ (requestV1 (fun _ => ⟨200, some "application/json", "ok"⟩)
        ((requestV1 (fun _ => ⟨200, some "application/json", "ok"⟩) [] "GET" "u").2.1)
        "GET" "u").1
      = Except.ok (V1Out.cachedResp ⟨200, some "application/json", "ok"⟩) := by
  constructor
  · rfl
  · rfl

/-- C10 (amended): the first variant resolves every HEAD and every
OPTIONS request with `undefined` before looking at the response's
content type; the second variant does so for HEAD and for any response
with status 204 — but not for OPTIONS. -/
theorem head_options_resolve_undefined (r : MResponse) (method : String) :
    parseResponseV1 "HEAD" r = ParsedData.undef
    ∧ parseResponseV1 "OPTIONS" r = ParsedData.undef
    ∧ unwrapResponseDataV2 "HEAD" r = ParsedData.undef
    ∧ (r.status = 204 → unwrapResponseDataV2 method r = ParsedData.undef) := by
  refine ⟨by simp [parseResponseV1], by simp [parseResponseV1],
    by simp [unwrapResponseDataV2], ?_⟩
  intro h204
  simp [unwrapResponseDataV2, h204]

/-- C10 counterexample: in the second variant an ok OPTIONS response
with a JSON content type is decoded as JSON, not resolved with
`undefined` as the claim states. -/
theorem options_v2_decodes_instead_of_undefined :
    unwrapResponseDataV2 "OPTIONS" ⟨200, some "application/json", "ok"⟩
      = ParsedData.json "ok"
    ∧ ParsedData.json "ok" ≠ ParsedData.undef := by
  constructor
  · rfl
  · decide

theorem lookupA_eq_none {K V : Type} [DecidableEq K] (m : List (K × V)) (k : K) :
    lookupA m k = none ↔ k ∉ keysOf m := by
  induction m with
  | nil => simp [lookupA, keysOf]
  | cons p rest ih =>
    by_cases hp : p.1 = k
    · subst hp
      simp [lookupA, keysOf]
    · rw [lookupA, if_neg hp, ih]
      have hcons : keysOf (p :: rest) = p.1 :: keysOf rest := rfl
      rw [hcons, List.mem_cons]
      constructor
      · intro h hmem
        rcases hmem with h1 | h1
        · exact hp h1.symm
        · exact h h1
      · intro h h1
        exact h (Or.inr h1)

theorem mem_keys_of_lookupA {K V : Type} [DecidableEq K] {m : List (K × V)} {k : K}
    {v : V} (h : lookupA m k = some v) : k ∈ keysOf m := by
  by_contra hk
  rw [← lookupA_eq_none m k] at hk
  rw [h] at hk
  cases hk

theorem lookupA_append_some {K V : Type} [DecidableEq K] {m1 : List (K × V)} {k : K}
    {v : V} (m2 : List (K × V)) (h : lookupA m1 k = some v) :
    lookupA (m1 ++ m2) k = some v := by
  induction m1 with
  | nil => cases h
  | cons p rest ih =>
    by_cases hp : p.1 = k
    · rw [lookupA, if_pos hp] at h
      rw [List.cons_append, lookupA, if_pos hp]
      exact h
    · rw [lookupA, if_neg hp] at h
      rw [List.cons_append, lookupA, if_neg hp]
      exact ih h

theorem lookupA_append_none {K V : Type} [DecidableEq K] {m1 : List (K × V)} {k : K}
    (m2 : List (K × V)) (h : lookupA m1 k = none) :
    lookupA (m1 ++ m2) k = lookupA m2 k := by
  induction m1 with
  | nil => rfl
  | cons p rest ih =>
    by_cases hp : p.1 = k
    · rw [lookupA, if_pos hp] at h
      cases h
    · rw [lookupA, if_neg hp] at h
      rw [List.cons_append, lookupA, if_neg hp]
      exact ih h

theorem keysOf_setAll {K V : Type} [DecidableEq K] (m : List (K × V)) (k2 : K) (v : V) :
    keysOf (m.map (fun p => if p.1 = k2 then (k2, v) else p)) = keysOf m := by
  rw [keysOf, keysOf, List.map_map]
  congr 1
  funext p
  by_cases hp : p.1 = k2
  · simp [Function.comp, hp]
  · simp [Function.comp, hp]

theorem lookupA_setAll {K V : Type} [DecidableEq K] (m : List (K × V)) (k2 k : K) (v : V) :
    lookupA (m.map (fun p => if p.1 = k2 then (k2, v) else p)) k
      = if k = k2 then (if (keysOf m).contains k2 then some v else none)
        else lookupA m k := by
  induction m with
  | nil =>
    by_cases hk : k = k2 <;> simp [lookupA, keysOf, hk]
  | cons p rest ih =>
    obtain ⟨pk, pv⟩ := p
    rw [List.map_cons]
    by_cases hp : pk = k2
    · subst hp
      have hhead : (if ((pk, pv) : K × V).1 = pk then (pk, v) else (pk, pv)) = (pk, v) :=
        if_pos rfl
      rw [hhead]
      have hcontains : (keysOf ((pk, pv) :: rest)).contains pk = true := by
        simp [keysOf, List.contains_cons]
      rw [hcontains]
      by_cases hk : k = pk
      · subst hk
        rw [lookupA, if_pos rfl, if_pos rfl, if_pos rfl]
      · have hk2 : ¬ (pk : K) = k := fun h => hk h.symm
        rw [lookupA, if_neg hk2, ih, if_neg hk, if_neg hk, lookupA, if_neg hk2]
    · have hhead : (if ((pk, pv) : K × V).1 = k2 then (k2, v) else (pk, pv)) = (pk, pv) :=
        if_neg hp
      rw [hhead]
      by_cases hpk : pk = k
      · have hk : ¬ k = k2 := by
          intro h
          exact hp (hpk.trans h)
        rw [lookupA, if_pos hpk, if_neg hk, lookupA, if_pos hpk]
      · rw [lookupA, if_neg hpk, ih]
        by_cases hk : k = k2
        · rw [if_pos hk, if_pos hk]
          have hck : keysOf ((pk, pv) :: rest) = pk :: keysOf rest := rfl
          have hbeq : (k2 == pk) = false := by
            rw [beq_eq_false_iff_ne]
            exact fun h => hp h.symm
          have hcc : (keysOf ((pk, pv) :: rest)).contains k2 = (keysOf rest).contains k2 := by
            rw [hck, List.contains_cons, hbeq, Bool.false_or]
          rw [hcc]
        · rw [if_neg hk, if_neg hk, lookupA, if_neg hpk]

theorem lookupA_upsert {K V : Type} [DecidableEq K] (m : List (K × V)) (k2 k : K) (v : V) :
    lookupA (upsert m k2 v) k = if k = k2 then some v else lookupA m k := by
  rw [upsert]
  by_cases hc : (keysOf m).contains k2
  · rw [if_pos hc, lookupA_setAll, if_pos hc]
  · rw [if_neg hc]
    by_cases hk : k = k2
    · subst hk
      have hnone : lookupA m k = none := by
        rw [lookupA_eq_none]
        simpa using hc
      rw [lookupA_append_none _ hnone, if_pos rfl, lookupA, if_pos rfl]
    · rcases hm : lookupA m k with _ | w
      · rw [lookupA_append_none _ hm, if_neg hk, lookupA,
          if_neg (fun h : k2 = k => hk h.symm)]
        rfl
      · rw [lookupA_append_some _ hm, if_neg hk]

theorem keysOf_append {K V : Type} (m1 m2 : List (K × V)) :
    keysOf (m1 ++ m2) = keysOf m1 ++ keysOf m2 := by
  simp [keysOf]

theorem keysOf_upsert {K V : Type} [DecidableEq K] (m : List (K × V)) (k : K) (v : V) :
    keysOf (upsert m k v)
      = if (keysOf m).contains k then keysOf m else keysOf m ++ [k] := by
  rw [upsert]
  by_cases hc : (keysOf m).contains k
  · rw [if_pos hc, if_pos hc, keysOf_setAll]
  · rw [if_neg hc, if_neg hc, keysOf_append]
    rfl

theorem keysOf_upsert_nodup {K V : Type} [DecidableEq K] {m : List (K × V)} (k : K)
    (v : V) (h : (keysOf m).Nodup) : (keysOf (upsert m k v)).Nodup := by
  rw [keysOf_upsert]
  by_cases hc : (keysOf m).contains k
  · rw [if_pos hc]
    exact h
  · rw [if_neg hc]
    rw [List.nodup_append]
    refine ⟨h, List.nodup_singleton k, ?_⟩
    intro x hx hk1
    rw [List.mem_singleton] at hk1
    subst hk1
    have hnc : x ∉ keysOf m := by simpa using hc
    exact hnc hx

theorem foldl_upsert_keys_nodup {K V : Type} [DecidableEq K] (ps : List (K × V)) :
    ∀ acc : List (K × V), (keysOf acc).Nodup →
    (keysOf (ps.foldl (fun a p => upsert a p.1 p.2) acc)).Nodup := by
  induction ps with
  | nil => exact fun acc h => h
  | cons p rest ih =>
    intro acc h
    rw [List.foldl_cons]
    exact ih _ (keysOf_upsert_nodup p.1 p.2 h)

theorem fromEntries_keys_nodup {K V : Type} [DecidableEq K] (ps : List (K × V)) :
    (keysOf (fromEntries ps)).Nodup :=
  foldl_upsert_keys_nodup ps [] List.nodup_nil

theorem spreadU_keys_nodup {K V : Type} [DecidableEq K] {m1 : List (K × V)}
    (m2 : List (K × V)) (h : (keysOf m1).Nodup) : (keysOf (spreadU m1 m2)).Nodup :=
  foldl_upsert_keys_nodup m2 m1 h

theorem lookupA_spreadU {K V : Type} [DecidableEq K] (m2 : List (K × V)) :
    ∀ m1 : List (K × V), ∀ k : K, (keysOf m2).Nodup →
    lookupA (spreadU m1 m2) k
      = match lookupA m2 k with
        | some v => some v
        | none => lookupA m1 k := by
  induction m2 with
  | nil =>
    intro m1 k _
    rfl
  | cons p rest ih =>
    intro m1 k hnd
    rw [keysOf, List.map_cons, List.nodup_cons] at hnd
    have hstep : spreadU m1 (p :: rest) = spreadU (upsert m1 p.1 p.2) rest := rfl
    rw [hstep, ih _ k hnd.2]
    by_cases hk : k = p.1
    · have hr : lookupA rest k = none := by
        rw [lookupA_eq_none]
        rw [hk]
        exact hnd.1
      rw [hr, lookupA_upsert, if_pos hk, lookupA, if_pos hk.symm]
    · have hp : ¬ p.1 = k := fun h => hk h.symm
      rw [lookupA, if_neg hp, lookupA_upsert, if_neg hk]

theorem mem_upsert {K V : Type} [DecidableEq K] {m : List (K × V)} {k : K} {v : V}
    {q : K × V} (h : q ∈ upsert m k v) : q ∈ m ∨ q = (k, v) := by
  rw [upsert] at h
  by_cases hc : (keysOf m).contains k
  · rw [if_pos hc] at h
    rcases List.mem_map.mp h with ⟨p, hp, hq⟩
    by_cases hpk : p.1 = k
    · rw [if_pos hpk] at hq
      exact Or.inr hq.symm
    · rw [if_neg hpk] at hq
      exact Or.inl (hq ▸ hp)
  · rw [if_neg hc] at h
    rcases List.mem_append.mp h with h | h
    · exact Or.inl h
    · exact Or.inr (List.mem_singleton.mp h)

theorem mem_foldl_upsert {K V : Type} [DecidableEq K] (ps : List (K × V)) :
    ∀ acc : List (K × V), ∀ q ∈ ps.foldl (fun a p => upsert a p.1 p.2) acc,
    q ∈ acc ∨ q ∈ ps := by
  induction ps with
  | nil => exact fun acc q h => Or.inl h
  | cons p rest ih =>
    intro acc q h
    rw [List.foldl_cons] at h
    rcases ih _ q h with h2 | h2
    · rcases mem_upsert h2 with h3 | h3
      · exact Or.inl h3
      · exact Or.inr (by simp [h3])
    · exact Or.inr (by simp [h2])

theorem mem_fromEntries {K V : Type} [DecidableEq K] {ps : List (K × V)} {q : K × V}
    (h : q ∈ fromEntries ps) : q ∈ ps := by
  rcases mem_foldl_upsert ps [] q h with h2 | h2
  · cases h2
  · exact h2

theorem mem_spreadU {K V : Type} [DecidableEq K] {m1 m2 : List (K × V)} {q : K × V}
    (h : q ∈ spreadU m1 m2) : q ∈ m1 ∨ q ∈ m2 :=
  mem_foldl_upsert m2 m1 q h

theorem dedupBy_id_mem {K : Type} [DecidableEq K] (l : List K) :
    ∀ seen : List K, ∀ x : K,
    (x ∈ dedupBy id seen l ↔ (x ∈ l ∧ x ∉ seen)) := by
  induction l with
  | nil => intro seen x; simp [dedupBy]
  | cons y ys ih =>
    intro seen x
    by_cases hc : seen.contains y
    · rw [dedupBy, if_pos (by simpa [id] using hc), ih]
      constructor
      · rintro ⟨h1, h2⟩
        exact ⟨by simp [h1], h2⟩
      · rintro ⟨h1, h2⟩
        rcases List.mem_cons.mp h1 with h1 | h1
        · subst h1
          exact absurd (by simpa using hc) h2
        · exact ⟨h1, h2⟩
    · rw [dedupBy, if_neg (by simpa [id] using hc)]
      by_cases hxy : x = y
      · subst hxy
        simp [List.mem_cons]
        intro h
        exact absurd (by simpa using h) (by simpa using hc)
      · rw [List.mem_cons]
        constructor
        · rintro (h | h)
          · exact absurd h hxy
          · rcases (ih _ x).mp h with ⟨h1, h2⟩
            refine ⟨by simp [h1], ?_⟩
            intro hmem
            exact h2 (by simp [List.mem_cons, hmem])
        · rintro ⟨h1, h2⟩
          rcases List.mem_cons.mp h1 with h1 | h1
          · exact absurd h1 hxy
          · refine Or.inr ((ih _ x).mpr ⟨h1, ?_⟩)
            intro hmem
            rcases List.mem_cons.mp hmem with h3 | h3
            · exact hxy h3
            · exact h2 h3

theorem dedupBy_id_nodup {K : Type} [DecidableEq K] (l : List K) :
    ∀ seen : List K, (dedupBy id seen l).Nodup := by
  induction l with
  | nil => intro seen; simp [dedupBy]
  | cons y ys ih =>
    intro seen
    by_cases hc : seen.contains y
    · rw [dedupBy, if_pos (by simpa [id] using hc)]
      exact ih seen
    · rw [dedupBy, if_neg (by simpa [id] using hc), List.nodup_cons]
      refine ⟨?_, ih _⟩
      intro hmem
      rcases (dedupBy_id_mem ys _ y).mp hmem with ⟨_, h2⟩
      exact h2 (by simp)

theorem lookupA_keyed_filterMap {K V : Type} [DecidableEq K] (f : K → Option V)
    (ks : List K) :
    ∀ k : K, ks.Nodup →
    lookupA (ks.filterMap (fun x => (f x).map (fun v => (x, v)))) k
      = if k ∈ ks then f k else none := by
  induction ks with
  | nil => intro k _; simp [lookupA]
  | cons x ks' ih =>
    intro k hnd
    rw [List.nodup_cons] at hnd
    rcases hf : f x with _ | v
    · rw [List.filterMap_cons_none (by simp [hf]), ih k hnd.2]
      by_cases hk : k = x
      · subst hk
        simp [hnd.1, hf]
      · simp [hk]
    · simp only [List.filterMap_cons, hf, Option.map_some']
      rw [show lookupA ((x, v) :: List.filterMap (fun x => (f x).map (fun v => (x, v))) ks') k
          = if x = k then some v
            else lookupA (List.filterMap (fun x => (f x).map (fun v => (x, v))) ks') k
          from rfl]
      by_cases hk : x = k
      · subst hk
        rw [if_pos rfl, if_pos (by simp), hf]
      · rw [if_neg hk, ih k hnd.2]
        have hk2 : ¬ k = x := fun h => hk h.symm
        simp [hk2]

theorem mergeHeadersModel_lookup (base req : List (List Char × List Char))
    (k : List Char) :
    lookupA (mergeHeadersModel base req) k
      = if k ∈ keysOf base ++ keysOf req then hdrValue base req k else none := by
  rw [mergeHeadersModel,
    lookupA_keyed_filterMap (hdrValue base req) _ k (dedupBy_id_nodup _ [])]
  by_cases hk : k ∈ keysOf base ++ keysOf req
  · rw [if_pos ((dedupBy_id_mem _ [] k).mpr ⟨hk, by simp⟩), if_pos hk]
  · rw [if_neg (fun h => hk ((dedupBy_id_mem _ [] k).mp h).1), if_neg hk]

theorem cookieRawPairs_key_ne_nil (s : List Char) :
    ∀ p ∈ cookieRawPairs s, p.1 ≠ [] := by
  intro p hp
  rw [cookieRawPairs] at hp
  rcases List.mem_filterMap.mp hp with ⟨piece, _, heq⟩
  rcases hsp : splitCh '=' (trim piece) with _ | ⟨k, rest⟩
  · simp only [hsp] at heq
    exact Option.noConfusion heq
  · simp only [hsp] at heq
    by_cases hk : k = []
    · simp [hk] at heq
    · rw [if_neg hk] at heq
      cases heq
      exact hk

theorem cookieParse_key_ne_nil (s : List Char) :
    ∀ p ∈ cookieParse s, p.1 ≠ [] := by
  intro p hp
  exact cookieRawPairs_key_ne_nil s p (mem_fromEntries hp)

theorem qLeB_total (a b : Q2) : qLeB a b = true ∨ qLeB b a = true := by
  rw [qLeB, qLeB]
  rcases le_total (a.num * (b.den : Int)) (b.num * (a.den : Int)) with h | h
  · exact Or.inl (by simpa using h)
  · exact Or.inr (by simpa using h)

theorem qLeB_trans {x y z : Q2} (h1 : qLeB x y = true) (h2 : qLeB y z = true) :
    qLeB x z = true := by
  rw [qLeB, decide_eq_true_eq] at h1 h2 ⊢
  have hyd : (0 : Int) < (y.den : Int) := by exact_mod_cast y.dpos
  have hxd : (0 : Int) ≤ (x.den : Int) := Int.ofNat_nonneg _
  have hzd : (0 : Int) ≤ (z.den : Int) := Int.ofNat_nonneg _
  nlinarith [h1, h2, hyd, hxd, hzd]

theorem qLe_total (a b : List Char × (Q2 × List Char)) :
    qLe a b = true ∨ qLe b a = true := by
  rw [qLe, qLe]
  rcases qLeB_total b.2.1 a.2.1 with h | h
  · exact Or.inl h
  · exact Or.inr h

theorem qLe_trans (a b c : List Char × (Q2 × List Char))
    (h1 : qLe a b = true) (h2 : qLe b c = true) : qLe a c = true := by
  rw [qLe] at h1 h2 ⊢
  exact qLeB_trans h2 h1

/-- C5 (amended): whenever both header sets carry a non-empty `cookie`
value, `mergeHeaders` produces exactly the cookie combinator's result:
both sides parsed as `;`-separated `key=value` pairs (pairs with an
empty key dropped — every surviving pair has a non-empty key), the
per-key union taken with the incoming side overriding the base side,
re-serialized `key=value; ...`; in particular
`merge({Cookie:"a=1"}, {Cookie:"a=2; b=3"})` is `a=2; b=3`.  (A side
whose cookie value is the empty string is falsy in the source and is
not merged: the other side's raw value is copied unchanged.) -/
theorem cookie_merge_is_pair_union (base req : List (List Char × List Char))
    (bv rv : List Char)
    (hb : lookupA base (cs "cookie") = some bv) (hbv : bv ≠ [])
    (hr : lookupA req (cs "cookie") = some rv) (hrv : rv ≠ []) :
    lookupA (mergeHeadersModel base req) (cs "cookie") = some (cookieMerge bv rv)
    ∧ (∀ k, lookupA (spreadU (cookieParse bv) (cookieParse rv)) k
        = match lookupA (cookieParse rv) k with
          | some v => some v
          | none => lookupA (cookieParse bv) k)
    ∧ (∀ p ∈ cookieParse bv, p.1 ≠ [])
    ∧ (∀ p ∈ cookieParse rv, p.1 ≠ [])
    ∧ lookupA (mergeHeadersModel [(cs "cookie", cs "a=1")]
        [(cs "cookie", cs "a=2; b=3")]) (cs "cookie") = some (cs "a=2; b=3") := by
  refine ⟨?_, ?_, cookieParse_key_ne_nil bv, cookieParse_key_ne_nil rv, by decide⟩
  · rw [mergeHeadersModel_lookup,
      if_pos (List.mem_append.mpr (Or.inl (mem_keys_of_lookupA hb)))]
    have hstrat : getStrategy (cs "cookie") = HStrategy.strMerge := by decide
    rw [hdrValue, hb, hr]
    simp only [truthy, if_neg hbv, if_neg hrv, hstrat]
    rw [mergeValues, if_pos (show cs "cookie" = "cookie".toList from rfl)]
  · intro k
    have h := lookupA_spreadU (cookieParse rv) (cookieParse bv) k
      (fromEntries_keys_nodup _)
    rcases hrk : lookupA (cookieParse rv) k with _ | v <;>
      simp only [hrk] at h ⊢ <;> exact h

/-- Witness for C5 at the spec's concrete input. -/
theorem cookie_merge_is_pair_union_witness :
    lookupA (mergeHeadersModel [(cs "cookie", cs "a=1")]
        [(cs "cookie", cs "a=2; b=3")]) (cs "cookie")
      = some (cookieMerge (cs "a=1") (cs "a=2; b=3")) :=
  (cookie_merge_is_pair_union [(cs "cookie", cs "a=1")] [(cs "cookie", cs "a=2; b=3")]
    (cs "a=1") (cs "a=2; b=3") rfl (by decide) rfl (by decide)).1

/-- C5 counterexample: the claim quantifies over every pair of header
sets that define the cookie header; with a base cookie of `""` (falsy in
the source) and an incoming cookie of `"a=1 ;b=2"`, `mergeHeaders`
copies the incoming value verbatim, while the claimed
parse-union-reserialize algorithm would produce the normalized
`"a=1; b=2"`. -/
theorem cookie_merge_empty_base_not_reserialized :
    lookupA (mergeHeadersModel [(cs "cookie", cs "")]
        [(cs "cookie", cs "a=1 ;b=2")]) (cs "cookie") = some (cs "a=1 ;b=2")
    ∧ cookieMerge (cs "") (cs "a=1 ;b=2") = cs "a=1; b=2"
    ∧ cs "a=1 ;b=2" ≠ cs "a=1; b=2" := by
  refine ⟨by decide, by decide, by decide⟩

/-- C4 (amended): for the accept-family headers the strategy table
classifies as `merge` (`accept`, `accept-encoding`, `accept-language`),
with both values non-empty, `mergeHeaders` produces exactly the accept
combinator's result: both sides parsed as comma-separated
`value[;q=quality]` items (quality defaulting to 1 and to 1 when
unparsable), the union keyed by item value with the incoming side
overriding the base side, re-serialized sorted by descending quality
while preserving each item's original formatting string; in particular
`merge({Accept:"text/html;q=0.5"}, {Accept:"application/json;q=0.9"})`
is `application/json;q=0.9, text/html;q=0.5`.  (An accept-family name
outside the merge table — e.g. `accept-charset` — resolves to the
override strategy instead.) -/
theorem accept_merge_is_quality_sorted_union (base req : List (List Char × List Char))
    (k bv rv : List Char)
    (hk : k ∈ mergeSet) (hacc : startsW "accept".toList k = true)
    (hb : lookupA base k = some bv) (hbv : bv ≠ [])
    (hr : lookupA req k = some rv) (hrv : rv ≠ []) :
    lookupA (mergeHeadersModel base req) k = some (acceptMerge bv rv)
    ∧ (acceptSorted bv rv).Pairwise (fun x y => qLe x y = true)
    ∧ (∀ kk, lookupA (acceptUnion bv rv) kk
        = match lookupA (acceptParse rv) kk with
          | some e => some e
          | none => lookupA (acceptParse bv) kk)
    ∧ lookupA (mergeHeadersModel [(cs "accept", cs "text/html;q=0.5")]
        [(cs "accept", cs "application/json;q=0.9")]) (cs "accept")
      = some (cs "application/json;q=0.9, text/html;q=0.5") := by
  refine ⟨?_, ?_, ?_, by decide⟩
  · rw [mergeHeadersModel_lookup,
      if_pos (List.mem_append.mpr (Or.inl (mem_keys_of_lookupA hb)))]
    have hstrat : getStrategy k = HStrategy.strMerge := by
      have hall : ∀ x ∈ mergeSet, getStrategy x = HStrategy.strMerge := by decide
      exact hall k hk
    have hnc : ¬ k = "cookie".toList := by
      intro h
      rw [h] at hacc
      exact absurd hacc (by decide)
    rw [hdrValue, hb, hr]
    simp only [truthy, if_neg hbv, if_neg hrv, hstrat]
    rw [mergeValues, if_neg hnc, if_pos hacc]
  · exact sSort_pairwise qLe_total qLe_trans (acceptUnion bv rv)
  · intro kk
    have h := lookupA_spreadU (acceptParse rv) (acceptParse bv) kk
      (fromEntries_keys_nodup _)
    rcases hrk : lookupA (acceptParse rv) kk with _ | e <;>
      simp only [hrk] at h ⊢ <;> exact h

/-- Witness for C4 at the spec's concrete input. -/
theorem accept_merge_is_quality_sorted_union_witness :
    lookupA (mergeHeadersModel [(cs "accept", cs "text/html;q=0.5")]
        [(cs "accept", cs "application/json;q=0.9")]) (cs "accept")
      = some (acceptMerge (cs "text/html;q=0.5") (cs "application/json;q=0.9")) :=
  (accept_merge_is_quality_sorted_union
    [(cs "accept", cs "text/html;q=0.5")] [(cs "accept", cs "application/json;q=0.9")]
    (cs "accept") (cs "text/html;q=0.5") (cs "application/json;q=0.9")
    (by decide) (by decide) rfl (by decide) rfl (by decide)).1

/-- C4 counterexample: `accept-charset` starts with `accept` but is not
in the merge table, so both sides defining it resolve to the override
strategy: the result is the incoming value alone, not the
quality-sorted union the claim describes for every header whose name
starts with `accept`. -/
theorem accept_charset_overrides_instead_of_merging :
    lookupA (mergeHeadersModel [(cs "accept-charset", cs "utf-8")]
        [(cs "accept-charset", cs "iso-8859-1;q=0.5")]) (cs "accept-charset")
      = some (cs "iso-8859-1;q=0.5")
    ∧ acceptMerge (cs "utf-8") (cs "iso-8859-1;q=0.5")
      = cs "utf-8, iso-8859-1;q=0.5"
    ∧ cs "iso-8859-1;q=0.5" ≠ cs "utf-8, iso-8859-1;q=0.5" := by
  refine ⟨by decide, by decide, by decide⟩

theorem splitCh_ne_nil (sep : Char) (l : List Char) : splitCh sep l ≠ [] := by
  induction l with
  | nil => simp [splitCh]
  | cons c cs ih =>
    rw [splitCh]
    rcases h : splitCh sep cs with _ | ⟨x, xs⟩
    · exact absurd h ih
    · by_cases hc : c = sep
      · simp [hc]
      · simp [hc]

theorem mem_splitCh_chars (sep : Char) (l : List Char) :
    ∀ p ∈ splitCh sep l, ∀ ch ∈ p, ch ∈ l := by
  induction l with
  | nil =>
    intro p hp ch hch
    simp [splitCh] at hp
    subst hp
    cases hch
  | cons c cs ih =>
    intro p hp ch hch
    rw [splitCh] at hp
    rcases h : splitCh sep cs with _ | ⟨x, xs⟩
    · exact absurd h (splitCh_ne_nil sep cs)
    · simp only [h] at hp
      by_cases hc : c = sep
      · rw [if_pos hc] at hp
        rcases List.mem_cons.mp hp with hp | hp
        · subst hp
          cases hch
        · exact List.mem_cons_of_mem c (ih p (h ▸ hp) ch hch)
      · rw [if_neg hc] at hp
        rcases List.mem_cons.mp hp with hp | hp
        · subst hp
          rcases List.mem_cons.mp hch with hch | hch
          · simp [hch]
          · exact List.mem_cons_of_mem c (ih x (h ▸ List.mem_cons_self x xs) ch hch)
        · exact List.mem_cons_of_mem c (ih p (h ▸ List.mem_cons_of_mem x hp) ch hch)

theorem mem_splitCh_not_sep (sep : Char) (l : List Char) :
    ∀ p ∈ splitCh sep l, sep ∉ p := by
  induction l with
  | nil =>
    intro p hp
    simp [splitCh] at hp
    subst hp
    simp
  | cons c cs ih =>
    intro p hp
    rw [splitCh] at hp
    rcases h : splitCh sep cs with _ | ⟨x, xs⟩
    · exact absurd h (splitCh_ne_nil sep cs)
    · simp only [h] at hp
      by_cases hc : c = sep
      · rw [if_pos hc] at hp
        rcases List.mem_cons.mp hp with hp | hp
        · subst hp
          simp
        · exact ih p (h ▸ hp)
      · rw [if_neg hc] at hp
        rcases List.mem_cons.mp hp with hp | hp
        · subst hp
          intro hm
          rcases List.mem_cons.mp hm with hm | hm
          · exact hc hm.symm
          · exact ih x (h ▸ List.mem_cons_self x xs) hm
        · exact ih p (h ▸ List.mem_cons_of_mem x hp)

theorem splitCh_noSep (sep : Char) (x : List Char) (hx : sep ∉ x) :
    splitCh sep x = [x] := by
  induction x with
  | nil => rfl
  | cons c cs ih =>
    have hc : ¬ c = sep := fun h => hx (by simp [h])
    have hcs : sep ∉ cs := fun h => hx (by simp [h])
    rw [splitCh, ih hcs]
    simp [hc]

theorem splitCh_append_noSep (sep : Char) (x : List Char) (hx : sep ∉ x)
    (l : List Char) :
    ∀ h t, splitCh sep l = h :: t → splitCh sep (x ++ l) = (x ++ h) :: t := by
  induction x with
  | nil => intro h t hl; simpa using hl
  | cons c x' ih =>
    intro h t hl
    have hc : ¬ c = sep := fun hcs => hx (by simp [hcs])
    have hx' : sep ∉ x' := fun hm => hx (by simp [hm])
    rw [List.cons_append, splitCh, ih hx' h t hl]
    simp [hc]

theorem splitCh_sep_cons (sep : Char) (l : List Char) :
    splitCh sep (sep :: l) = [] :: splitCh sep l := by
  rw [splitCh]
  rcases h : splitCh sep l with _ | ⟨x, xs⟩
  · exact absurd h (splitCh_ne_nil sep l)
  · simp

theorem splitCh_append_sep (sep : Char) (x : List Char) (hx : sep ∉ x)
    (rest : List Char) :
    splitCh sep (x ++ sep :: rest) = x :: splitCh sep rest := by
  have h := splitCh_sep_cons sep rest
  have h2 := splitCh_append_noSep sep x hx (sep :: rest) [] (splitCh sep rest) h
  simpa using h2

theorem interc_splitCh (sep : Char) (l : List Char) :
    interc [sep] (splitCh sep l) = l := by
  induction l with
  | nil => rfl
  | cons c cs ih =>
    rw [splitCh]
    rcases h : splitCh sep cs with _ | ⟨x, xs⟩
    · exact absurd h (splitCh_ne_nil sep cs)
    · rw [h] at ih
      simp only [h]
      by_cases hc : c = sep
      · subst hc
        rw [if_pos rfl]
        rw [show interc [c] ([] :: x :: xs) = [] ++ [c] ++ interc [c] (x :: xs) from rfl]
        rw [ih]
        rfl
      · rw [if_neg hc]
        cases xs with
        | nil =>
          rw [show interc [sep] [x] = x from rfl] at ih
          rw [show interc [sep] [c :: x] = c :: x from rfl, ih]
        | cons y ys =>
          rw [show interc [sep] ((c :: x) :: y :: ys)
              = (c :: x) ++ [sep] ++ interc [sep] (y :: ys) from rfl]
          rw [show interc [sep] (x :: y :: ys)
              = x ++ [sep] ++ interc [sep] (y :: ys) from rfl] at ih
          rw [← ih]
          rfl

theorem splitCh_interc (sep : Char) (w : List Char) (hw : sep ∉ w)
    (ps : List (List Char)) :
    ∀ x : List Char, sep ∉ x → (∀ p ∈ ps, sep ∉ p) →
    splitCh sep (interc (sep :: w) (x :: ps)) = x :: ps.map (fun p => w ++ p) := by
  induction ps with
  | nil =>
    intro x hx _
    rw [show interc (sep :: w) [x] = x from rfl, splitCh_noSep sep x hx]
    rfl
  | cons y ys ih =>
    intro x hx hps
    rw [show interc (sep :: w) (x :: y :: ys)
        = x ++ (sep :: w) ++ interc (sep :: w) (y :: ys) from rfl]
    have hassoc : x ++ (sep :: w) ++ interc (sep :: w) (y :: ys)
        = x ++ sep :: (w ++ interc (sep :: w) (y :: ys)) := by simp
    rw [hassoc, splitCh_append_sep sep x hx]
    have hih := ih y (hps y (by simp)) (fun p hp => hps p (by simp [hp]))
    rcases hsp : splitCh sep (interc (sep :: w) (y :: ys)) with _ | ⟨h0, t0⟩
    · exact absurd hsp (splitCh_ne_nil sep _)
    · rw [hsp] at hih
      rw [splitCh_append_noSep sep w hw _ h0 t0 hsp]
      cases hih
      simp

theorem trimL_length_le (l : List Char) : (trimL l).length ≤ l.length := by
  induction l with
  | nil => simp [trimL]
  | cons c cs ih =>
    rw [trimL]
    by_cases h : isWs c
    · rw [if_pos h]
      exact le_trans ih (by simp)
    · rw [if_neg h]

theorem trimL_head_not_ws (l : List Char) :
    ∀ c t, trimL l = c :: t → isWs c = false := by
  induction l with
  | nil => intro c t h; cases h
  | cons d ds ih =>
    intro c t h
    rw [trimL] at h
    by_cases hd : isWs d
    · rw [if_pos hd] at h
      exact ih c t h
    · rw [if_neg hd] at h
      cases h
      simpa using hd

theorem trimL_stable_cons (c : Char) (t : List Char) (h : isWs c = false) :
    trimL (c :: t) = c :: t := by
  rw [trimL, if_neg (by simp [h])]

theorem trimL_idem (l : List Char) : trimL (trimL l) = trimL l := by
  rcases h : trimL l with _ | ⟨c, t⟩
  · rfl
  · exact trimL_stable_cons c t (trimL_head_not_ws l c t h)

theorem trimL_app (x y : List Char) (hx : trimL x = x) (hne : x ≠ []) :
    trimL (x ++ y) = x ++ y := by
  cases x with
  | nil => exact absurd rfl hne
  | cons c t =>
    have hc : isWs c = false := trimL_head_not_ws (c :: t) c t hx
    rw [List.cons_append]
    exact trimL_stable_cons c (t ++ y) hc

theorem trimL_prefix_stable (x z : List Char) (hx : trimL (x ++ z) = x ++ z) :
    trimL x = x := by
  cases x with
  | nil => rfl
  | cons c t =>
    rw [List.cons_append] at hx
    by_cases hc : isWs c
    · rw [trimL, if_pos hc] at hx
      have := trimL_length_le (t ++ z)
      rw [hx] at this
      simp at this
    · exact trimL_stable_cons c t (by simpa using hc)

theorem trimL_suffix (l : List Char) : ∃ w, l = w ++ trimL l := by
  induction l with
  | nil => exact ⟨[], rfl⟩
  | cons c cs ih =>
    by_cases h : isWs c
    · obtain ⟨w, hw⟩ := ih
      refine ⟨c :: w, ?_⟩
      rw [trimL, if_pos h, List.cons_append, ← hw]
    · refine ⟨[], ?_⟩
      rw [trimL, if_neg h]
      rfl

theorem trimR_idem (l : List Char) : trimR (trimR l) = trimR l := by
  rw [trimR, trimR, List.reverse_reverse, trimL_idem]

theorem trimR_app (y z : List Char) (hz : trimR z = z) (hne : z ≠ []) :
    trimR (y ++ z) = y ++ z := by
  have hzr : trimL z.reverse = z.reverse := by
    have := congrArg List.reverse hz
    rw [trimR, List.reverse_reverse] at this
    exact this
  have hzne : z.reverse ≠ [] := by simpa using hne
  rw [trimR, List.reverse_append, trimL_app z.reverse y.reverse hzr hzne,
    List.reverse_append, List.reverse_reverse, List.reverse_reverse]

theorem trimR_of_append_stable (y z : List Char) (h : trimR (y ++ z) = y ++ z) :
    trimR z = z := by
  have h2 : trimL (z.reverse ++ y.reverse) = z.reverse ++ y.reverse := by
    have := congrArg List.reverse h
    rw [trimR, List.reverse_reverse, List.reverse_append] at this
    exact this
  have h3 := trimL_prefix_stable z.reverse y.reverse h2
  rw [trimR, h3, List.reverse_reverse]

theorem trim_app (x y : List Char) (hx : trimL x = x) (hxne : x ≠ [])
    (hy : trimR y = y) (hyne : y ≠ []) : trim (x ++ y) = x ++ y := by
  rw [trim, trimL_app x y hx hxne, trimR_app x y hy hyne]

theorem trim_ws_cons (c : Char) (p : List Char) (h : isWs c = true) :
    trim (c :: p) = trim p := by
  rw [trim, trim, trimL, if_pos (by simp [h])]

theorem trimR_prefix (l : List Char) : ∃ z, l = trimR l ++ z := by
  obtain ⟨w, hw⟩ := trimL_suffix l.reverse
  refine ⟨w.reverse, ?_⟩
  rw [trimR]
  have := congrArg List.reverse hw
  rw [List.reverse_reverse, List.reverse_append] at this
  exact this

theorem trimL_of_trim (l : List Char) : trimL (trim l) = trim l := by
  rw [trim]
  obtain ⟨z, hz⟩ := trimR_prefix (trimL l)
  have hst : trimL (trimR (trimL l) ++ z) = trimR (trimL l) ++ z := by
    rw [← hz]
    exact trimL_idem l
  exact trimL_prefix_stable _ z hst

theorem trimR_of_trim (l : List Char) : trimR (trim l) = trim l := by
  rw [trim, trimR_idem]

theorem trim_idem (l : List Char) : trim (trim l) = trim l := by
  conv_lhs => rw [trim]
  rw [trimL_of_trim, trimR_of_trim]

theorem trimL_chars (l : List Char) : ∀ ch ∈ trimL l, ch ∈ l := by
  induction l with
  | nil => intro ch h; cases h
  | cons c cs ih =>
    intro ch h
    rw [trimL] at h
    by_cases hc : isWs c
    · rw [if_pos hc] at h
      exact List.mem_cons_of_mem c (ih ch h)
    · rw [if_neg hc] at h
      exact h

theorem trim_chars (l : List Char) : ∀ ch ∈ trim l, ch ∈ l := by
  intro ch h
  rw [trim, trimR] at h
  rw [List.mem_reverse] at h
  have h2 := trimL_chars (trimL l).reverse ch h
  rw [List.mem_reverse] at h2
  exact trimL_chars l ch h2

theorem listItems_interc (ps : List (List Char))
    (h : ∀ p ∈ ps, trim p = p ∧ p ≠ [] ∧ ',' ∉ p) :
    listItems (interc ", ".toList ps) = ps := by
  cases ps with
  | nil => rfl
  | cons x rest =>
    rw [listItems]
    have hsplit : splitCh ',' (interc ", ".toList (x :: rest))
        = x :: rest.map (fun p => [' '] ++ p) :=
      splitCh_interc ',' [' '] (by decide) rest x (h x (by simp)).2.2
        (fun p hp => (h p (by simp [hp])).2.2)
    rw [hsplit, List.map_cons, List.map_map]
    rw [(h x (by simp)).1]
    have hmap : ∀ l : List (List Char), (∀ p ∈ l, trim p = p) →
        l.map (trim ∘ fun p => [' '] ++ p) = l := by
      intro l
      induction l with
      | nil => intro _; rfl
      | cons q qs ih =>
        intro hq
        rw [List.map_cons, ih (fun p hp => hq p (by simp [hp]))]
        have hone : (trim ∘ fun p => [' '] ++ p) q = q := by
          show trim ([' '] ++ q) = q
          rw [show ([' '] ++ q) = ' ' :: q from rfl, trim_ws_cons ' ' q (by decide),
            hq q (by simp)]
        rw [hone]
    rw [hmap rest (fun p hp => (h p (by simp [hp])).1)]
    rw [List.filter_eq_self.mpr]
    intro a ha
    rcases List.mem_cons.mp ha with ha | ha
    · subst ha
      simpa using (h a (by simp)).2.1
    · simpa using (h a (by simp [ha])).2.1

theorem listItems_props (s : List Char) :
    ∀ p ∈ listItems s, trim p = p ∧ p ≠ [] ∧ ',' ∉ p := by
  intro p hp
  rw [listItems] at hp
  rw [List.mem_filter] at hp
  obtain ⟨hp1, hp2⟩ := hp
  rcases List.mem_map.mp hp1 with ⟨piece, hpiece, rfl⟩
  refine ⟨trim_idem piece, by simpa using hp2, ?_⟩
  intro hc
  exact mem_splitCh_not_sep ',' s piece hpiece (trim_chars piece ',' hc)

theorem filterMap_congr_some {α β : Type} (f : α → Option β) (g : α → β)
    (l : List α) (h : ∀ a ∈ l, f a = some (g a)) : l.filterMap f = l.map g := by
  induction l with
  | nil => rfl
  | cons a rest ih =>
    rw [List.filterMap_cons_some (h a (by simp)), List.map_cons,
      ih (fun x hx => h x (by simp [hx]))]

theorem foldl_upsert_of_nodup {K V : Type} [DecidableEq K] (ps : List (K × V)) :
    ∀ acc, (keysOf (acc ++ ps)).Nodup →
    ps.foldl (fun a p => upsert a p.1 p.2) acc = acc ++ ps := by
  induction ps with
  | nil => intro acc _; simp
  | cons p rest ih =>
    intro acc hnd
    rw [List.foldl_cons]
    have hkey : ¬ ((keysOf acc).contains p.1 = true) := by
      rw [keysOf_append] at hnd
      intro hcon
      have hdisj := List.disjoint_of_nodup_append hnd
      exact hdisj (by simpa using hcon) (by simp [keysOf])
    rw [upsert, if_neg hkey]
    have hnd2 : (keysOf ((acc ++ [(p.1, p.2)]) ++ rest)).Nodup := by
      have : (acc ++ [(p.1, p.2)]) ++ rest = acc ++ p :: rest := by simp
      rw [this]
      exact hnd
    rw [ih (acc ++ [(p.1, p.2)]) hnd2]
    simp

theorem fromEntries_of_nodup {K V : Type} [DecidableEq K] (ps : List (K × V))
    (h : (keysOf ps).Nodup) : fromEntries ps = ps := by
  have h2 := foldl_upsert_of_nodup ps [] (by simpa using h)
  simpa [fromEntries] using h2

theorem lookupA_of_mem_nodup {K V : Type} [DecidableEq K] {m : List (K × V)}
    (hnd : (keysOf m).Nodup) {pr : K × V} (h : pr ∈ m) :
    lookupA m pr.1 = some pr.2 := by
  induction m with
  | nil => cases h
  | cons q rest ih =>
    rw [keysOf, List.map_cons, List.nodup_cons] at hnd
    rcases List.mem_cons.mp h with h | h
    · subst h
      rw [lookupA, if_pos rfl]
    · have hq : ¬ q.1 = pr.1 := by
        intro he
        apply hnd.1
        rw [he]
        exact List.mem_map_of_mem Prod.fst h
      rw [lookupA, if_neg hq]
      exact ih hnd.2 h

theorem mem_of_lookupA {K V : Type} [DecidableEq K] {m : List (K × V)} {k : K}
    {v : V} (h : lookupA m k = some v) : (k, v) ∈ m := by
  induction m with
  | nil => cases h
  | cons q rest ih =>
    by_cases hq : q.1 = k
    · rw [lookupA, if_pos hq] at h
      cases h
      have he : (k, q.2) = q := by
        rw [← hq]
      rw [he]
      exact List.mem_cons_self q rest
    · rw [lookupA, if_neg hq] at h
      exact List.mem_cons_of_mem q (ih h)

theorem lookupA_perm {K V : Type} [DecidableEq K] {m1 m2 : List (K × V)}
    (hp : m1.Perm m2) (hnd : (keysOf m1).Nodup) (k : K) :
    lookupA m1 k = lookupA m2 k := by
  have hmap : (keysOf m1).Perm (keysOf m2) := hp.map Prod.fst
  have hnd2 : (keysOf m2).Nodup := hmap.nodup_iff.mp hnd
  rcases h1 : lookupA m1 k with _ | v
  · rcases h2 : lookupA m2 k with _ | w
    · rfl
    · have hk2 := mem_keys_of_lookupA h2
      have hk1 : k ∈ keysOf m1 := hmap.mem_iff.mpr hk2
      rw [lookupA_eq_none] at h1
      exact absurd hk1 h1
  · have hmem : (k, v) ∈ m1 := mem_of_lookupA h1
    have hmem2 : (k, v) ∈ m2 := hp.mem_iff.mp hmem
    exact (lookupA_of_mem_nodup hnd2 hmem2).symm

theorem mem_keys_upsert_self {K V : Type} [DecidableEq K] (m : List (K × V))
    (k : K) (v : V) : k ∈ keysOf (upsert m k v) := by
  rw [keysOf_upsert]
  by_cases hc : (keysOf m).contains k
  · rw [if_pos hc]
    simpa using hc
  · rw [if_neg hc]
    simp

theorem mem_keys_upsert_of_mem {K V : Type} [DecidableEq K] (m : List (K × V))
    (k2 : K) (v : V) {k : K} (h : k ∈ keysOf m) : k ∈ keysOf (upsert m k2 v) := by
  rw [keysOf_upsert]
  by_cases hc : (keysOf m).contains k2
  · rw [if_pos hc]
    exact h
  · rw [if_neg hc]
    simp [h]

theorem mem_keys_spreadU_left {K V : Type} [DecidableEq K] (m2 : List (K × V)) :
    ∀ m1, ∀ k ∈ keysOf m1, k ∈ keysOf (spreadU m1 m2) := by
  induction m2 with
  | nil => intro m1 k h; exact h
  | cons q rest ih =>
    intro m1 k h
    rw [show spreadU m1 (q :: rest) = spreadU (upsert m1 q.1 q.2) rest from rfl]
    exact ih _ k (mem_keys_upsert_of_mem m1 q.1 q.2 h)

theorem mem_keys_spreadU_right {K V : Type} [DecidableEq K] (m2 : List (K × V)) :
    ∀ m1, ∀ k ∈ keysOf m2, k ∈ keysOf (spreadU m1 m2) := by
  induction m2 with
  | nil => intro m1 k h; cases h
  | cons q rest ih =>
    intro m1 k h
    rw [show spreadU m1 (q :: rest) = spreadU (upsert m1 q.1 q.2) rest from rfl]
    rw [show keysOf (q :: rest) = q.1 :: keysOf rest from rfl] at h
    rcases List.mem_cons.mp h with h | h
    · subst h
      exact mem_keys_spreadU_left rest (upsert m1 q.1 q.2) q.1
        (mem_keys_upsert_self m1 q.1 q.2)
    · exact ih _ k h

theorem spreadU_sub {K V : Type} [DecidableEq K] (m2 : List (K × V)) :
    ∀ m1, (keysOf m2).Nodup → (∀ k ∈ keysOf m2, k ∈ keysOf m1) →
    spreadU m1 m2 = m1.map (fun pr =>
      match lookupA m2 pr.1 with
      | some v => (pr.1, v)
      | none => pr) := by
  induction m2 with
  | nil =>
    intro m1 _ _
    rw [show spreadU m1 [] = m1 from rfl]
    have h2 : (fun pr : K × V =>
        match lookupA ([] : List (K × V)) pr.1 with
        | some v => (pr.1, v)
        | none => pr) = id := by
      funext pr
      rfl
    rw [h2, List.map_id]
  | cons q rest ih =>
    intro m1 hnd hsub
    rw [show spreadU m1 (q :: rest) = spreadU (upsert m1 q.1 q.2) rest from rfl]
    have hq1 : q.1 ∈ keysOf m1 := by
      apply hsub q.1
      rw [show keysOf (q :: rest) = q.1 :: keysOf rest from rfl]
      exact List.mem_cons_self q.1 (keysOf rest)
    have hcont : (keysOf m1).contains q.1 = true := by simpa using hq1
    rw [keysOf, List.map_cons, List.nodup_cons] at hnd
    rw [upsert, if_pos hcont]
    have hsub2 : ∀ k ∈ keysOf rest,
        k ∈ keysOf (m1.map (fun p => if p.1 = q.1 then (q.1, q.2) else p)) := by
      intro k hk
      rw [keysOf_setAll]
      apply hsub k
      rw [show keysOf (q :: rest) = q.1 :: keysOf rest from rfl]
      exact List.mem_cons_of_mem q.1 hk
    rw [ih _ hnd.2 hsub2, List.map_map]
    congr 1
    funext pr
    by_cases hpr : pr.1 = q.1
    · have hrest : lookupA rest q.1 = none := by
        rw [lookupA_eq_none]
        exact hnd.1
      simp only [Function.comp]
      rw [if_pos hpr]
      have h3 : lookupA rest ((q.1, q.2) : K × V).1 = none := hrest
      rw [h3]
      have hl : lookupA (q :: rest) pr.1 = some q.2 := by
        rw [lookupA, if_pos hpr.symm]
      rw [hl, hpr]
    · simp only [Function.comp]
      rw [if_neg hpr]
      have hl : lookupA (q :: rest) pr.1 = lookupA rest pr.1 := by
        rw [lookupA, if_neg (fun h : q.1 = pr.1 => hpr h.symm)]
      rw [hl]

theorem map_congr_mem {α β : Type} (l : List α) (f g : α → β)
    (h : ∀ a ∈ l, f a = g a) : l.map f = l.map g := by
  induction l with
  | nil => rfl
  | cons a rest ih =>
    rw [List.map_cons, List.map_cons, h a (by simp), ih (fun x hx => h x (by simp [hx]))]

theorem cookieRawPairs_props (s : List Char) :
    ∀ pr ∈ cookieRawPairs s, pr.1 ≠ [] ∧ trimL pr.1 = pr.1 ∧ ';' ∉ pr.1 ∧ '=' ∉ pr.1
      ∧ ';' ∉ valText pr.2 ∧ '=' ∉ valText pr.2 := by
  intro pr hpr
  rw [cookieRawPairs] at hpr
  rcases List.mem_filterMap.mp hpr with ⟨piece, hpiece, heq⟩
  rcases hsp : splitCh '=' (trim piece) with _ | ⟨k, rest⟩
  · simp only [hsp] at heq
    exact Option.noConfusion heq
  · simp only [hsp] at heq
    by_cases hk : k = []
    · simp [hk] at heq
    · rw [if_neg hk] at heq
      cases heq
      have hkmem : k ∈ splitCh '=' (trim piece) := by
        rw [hsp]
        exact List.mem_cons_self k rest
      have hsemi : ';' ∉ piece := mem_splitCh_not_sep ';' s piece hpiece
      have hkchars : ∀ ch ∈ k, ch ∈ piece := fun ch hch =>
        trim_chars piece ch (mem_splitCh_chars '=' (trim piece) k hkmem ch hch)
      refine ⟨hk, ?_, ?_, ?_, ?_, ?_⟩
      · have hjoin : interc ['='] (k :: rest) = trim piece := by
          rw [← hsp]
          exact interc_splitCh '=' (trim piece)
        cases rest with
        | nil =>
          have hkt : k = trim piece := by
            rw [← hjoin]
            rfl
          rw [hkt]
          exact trimL_of_trim piece
        | cons r rs =>
          have ht : trim piece = k ++ '=' :: interc ['='] (r :: rs) := by
            rw [← hjoin,
              show interc ['='] (k :: r :: rs)
                = (k ++ ['=']) ++ interc ['='] (r :: rs) from rfl,
              List.append_assoc]
            rfl
          have hstable := trimL_of_trim piece
          rw [ht] at hstable
          exact trimL_prefix_stable k _ hstable
      · intro hc
        exact hsemi (hkchars ';' hc)
      · intro hc
        exact mem_splitCh_not_sep '=' (trim piece) k hkmem hc
      · rcases rest with _ | ⟨v, rs⟩
        · show ';' ∉ valText none
          decide
        · have hvmem : v ∈ splitCh '=' (trim piece) := by
            rw [hsp]
            exact List.mem_cons_of_mem k (List.mem_cons_self v rs)
          intro hc
          exact hsemi (trim_chars piece ';'
            (mem_splitCh_chars '=' (trim piece) v hvmem ';' hc))
      · rcases rest with _ | ⟨v, rs⟩
        · show '=' ∉ valText none
          decide
        · have hvmem : v ∈ splitCh '=' (trim piece) := by
            rw [hsp]
            exact List.mem_cons_of_mem k (List.mem_cons_self v rs)
          intro hc
          exact mem_splitCh_not_sep '=' (trim piece) v hvmem hc

theorem cookieRawPairs_valEnd (s : List Char) (hs : hCookie s = true) :
    ∀ pr ∈ cookieRawPairs s, trimR ('=' :: valText pr.2) = '=' :: valText pr.2 := by
  intro pr hpr
  rw [cookieRawPairs] at hpr
  rcases List.mem_filterMap.mp hpr with ⟨piece, hpiece, heq⟩
  rcases hsp : splitCh '=' (trim piece) with _ | ⟨k, rest⟩
  · simp only [hsp] at heq
    exact Option.noConfusion heq
  · simp only [hsp] at heq
    by_cases hk : k = []
    · simp [hk] at heq
    · rw [if_neg hk] at heq
      cases heq
      rcases rest with _ | ⟨v, rs⟩
      · show trimR ('=' :: valText none) = '=' :: valText none
        decide
      · rw [hCookie, List.all_eq_true] at hs
        have hlen := hs piece hpiece
        rw [hsp] at hlen
        have hrs : rs = [] := by
          rcases rs with _ | ⟨w, ws⟩
          · rfl
          · simp at hlen
        subst hrs
        have hjoin : interc ['='] [k, v] = trim piece := by
          rw [← hsp]
          exact interc_splitCh '=' (trim piece)
        have ht : trim piece = k ++ '=' :: v := by
          rw [← hjoin,
            show interc ['='] [k, v] = (k ++ ['=']) ++ v from rfl,
            List.append_assoc]
          rfl
        have hR := trimR_of_trim piece
        rw [ht] at hR
        exact trimR_of_append_stable k ('=' :: v) hR

theorem cookieParse_canon (s : List Char) (hs : hCookie s = true) :
    ∀ pr ∈ cookieParse s, pr.1 ≠ [] ∧ trimL pr.1 = pr.1 ∧ ';' ∉ pr.1 ∧ '=' ∉ pr.1
      ∧ ';' ∉ valText pr.2 ∧ '=' ∉ valText pr.2
      ∧ trimR ('=' :: valText pr.2) = '=' :: valText pr.2 := by
  intro pr hpr
  have h := cookieRawPairs_props s pr (mem_fromEntries hpr)
  have h2 := cookieRawPairs_valEnd s hs pr (mem_fromEntries hpr)
  exact ⟨h.1, h.2.1, h.2.2.1, h.2.2.2.1, h.2.2.2.2.1, h.2.2.2.2.2, h2⟩

theorem cookieRawPiece (piece : List Char) (pr : List Char × Option (List Char))
    (htr : trim piece = cookiePair pr)
    (h1 : pr.1 ≠ []) (h4 : '=' ∉ pr.1) (h6 : '=' ∉ valText pr.2) :
    (match splitCh '=' (trim piece) with
      | [] => (none : Option (List Char × Option (List Char)))
      | k :: rest => if k = [] then none else some (k, rest.head?))
      = some (pr.1, some (valText pr.2)) := by
  rw [htr, cookiePair, splitCh_append_sep '=' pr.1 h4,
    splitCh_noSep '=' (valText pr.2) h6]
  show (if pr.1 = [] then (none : Option (List Char × Option (List Char)))
    else some (pr.1, [valText pr.2].head?)) = some (pr.1, some (valText pr.2))
  rw [if_neg h1]
  rfl

theorem cookieRawPairs_serialize (P : List (List Char × Option (List Char)))
    (hne : P ≠ [])
    (hP : ∀ pr ∈ P, pr.1 ≠ [] ∧ trimL pr.1 = pr.1 ∧ ';' ∉ pr.1 ∧ '=' ∉ pr.1
      ∧ ';' ∉ valText pr.2 ∧ '=' ∉ valText pr.2
      ∧ trimR ('=' :: valText pr.2) = '=' :: valText pr.2) :
    cookieRawPairs (interc "; ".toList (P.map cookiePair))
      = P.map (fun pr => (pr.1, some (valText pr.2))) := by
  rcases P with _ | ⟨pr0, P'⟩
  · exact absurd rfl hne
  have hnosemi : ∀ pr ∈ pr0 :: P', ';' ∉ cookiePair pr := by
    intro pr hpr hm
    obtain ⟨_, _, h3, _, h5, _, _⟩ := hP pr hpr
    rw [cookiePair] at hm
    rcases List.mem_append.mp hm with hm | hm
    · exact h3 hm
    · rcases List.mem_cons.mp hm with hm | hm
      · exact absurd hm (by decide)
      · exact h5 hm
  have hsplit : splitCh ';' (interc "; ".toList ((pr0 :: P').map cookiePair))
      = cookiePair pr0 :: (P'.map cookiePair).map (fun p => [' '] ++ p) := by
    rw [List.map_cons]
    exact splitCh_interc ';' [' '] (by decide) (P'.map cookiePair) (cookiePair pr0)
      (hnosemi pr0 (by simp))
      (fun p hp => by
        rcases List.mem_map.mp hp with ⟨pr, hpr, rfl⟩
        exact hnosemi pr (by simp [hpr]))
  rw [cookieRawPairs, hsplit, List.map_map]
  obtain ⟨h1, h2, _, h4, _, h6, h7⟩ := hP pr0 (by simp)
  have htr0 : trim (cookiePair pr0) = cookiePair pr0 := by
    rw [cookiePair]
    exact trim_app pr0.1 ('=' :: valText pr0.2) h2 h1 h7 (by simp)
  have hhead := cookieRawPiece (cookiePair pr0) pr0 htr0 h1 h4 h6
  rw [List.filterMap_cons]
  simp only [hhead]
  rw [List.filterMap_map]
  rw [filterMap_congr_some _ (fun pr => (pr.1, some (valText pr.2))) P' ?_]
  · rfl
  · intro pr hpr
    obtain ⟨g1, g2, _, g4, _, g6, g7⟩ := hP pr (by simp [hpr])
    have gtr : trim (((fun p => [' '] ++ p) ∘ cookiePair) pr) = cookiePair pr := by
      show trim ([' '] ++ cookiePair pr) = cookiePair pr
      rw [show ([' '] ++ cookiePair pr) = ' ' :: cookiePair pr from rfl,
        trim_ws_cons ' ' (cookiePair pr) (by decide)]
      rw [cookiePair]
      exact trim_app pr.1 ('=' :: valText pr.2) g2 g1 g7 (by simp)
    exact cookieRawPiece (((fun p => [' '] ++ p) ∘ cookiePair) pr) pr gtr g1 g4 g6

theorem keysOf_map_toText (P : List (List Char × Option (List Char))) :
    keysOf (P.map (fun pr => (pr.1, some (valText pr.2)))) = keysOf P := by
  rw [keysOf, keysOf, List.map_map]
  congr 1

theorem cookieMerge_idem (av bv : List Char) (ha : hCookie av = true)
    (hb : hCookie bv = true) (hne : cookieMerge av bv ≠ []) :
    cookieMerge (cookieMerge av bv) bv = cookieMerge av bv := by
  have hPnd : (keysOf (spreadU (cookieParse av) (cookieParse bv))).Nodup :=
    spreadU_keys_nodup _ (fromEntries_keys_nodup _)
  have hcanon : ∀ pr ∈ spreadU (cookieParse av) (cookieParse bv),
      pr.1 ≠ [] ∧ trimL pr.1 = pr.1 ∧ ';' ∉ pr.1 ∧ '=' ∉ pr.1
      ∧ ';' ∉ valText pr.2 ∧ '=' ∉ valText pr.2
      ∧ trimR ('=' :: valText pr.2) = '=' :: valText pr.2 := by
    intro pr hpr
    rcases mem_spreadU hpr with h | h
    · exact cookieParse_canon av ha pr h
    · exact cookieParse_canon bv hb pr h
  have hPne : spreadU (cookieParse av) (cookieParse bv) ≠ [] := by
    intro h0
    apply hne
    rw [cookieMerge, h0]
    rfl
  have hparse : cookieParse (cookieMerge av bv)
      = (spreadU (cookieParse av) (cookieParse bv)).map
          (fun pr => (pr.1, some (valText pr.2))) := by
    rw [cookieParse, cookieMerge, cookieRawPairs_serialize _ hPne hcanon]
    apply fromEntries_of_nodup
    rw [keysOf_map_toText]
    exact hPnd
  rw [show cookieMerge (cookieMerge av bv) bv
      = interc "; ".toList
          ((spreadU (cookieParse (cookieMerge av bv)) (cookieParse bv)).map cookiePair)
      from rfl]
  rw [hparse]
  have hsub : ∀ k ∈ keysOf (cookieParse bv),
      k ∈ keysOf ((spreadU (cookieParse av) (cookieParse bv)).map
        (fun pr => (pr.1, some (valText pr.2)))) := by
    intro k hk
    rw [keysOf_map_toText]
    exact mem_keys_spreadU_right _ _ k hk
  rw [spreadU_sub (cookieParse bv) _ (fromEntries_keys_nodup _) hsub, List.map_map,
    List.map_map]
  rw [cookieMerge]
  congr 1
  apply map_congr_mem
  intro pr hpr
  rcases hB : lookupA (cookieParse bv) pr.1 with _ | w
  · simp only [Function.comp_apply, hB, cookiePair, valText]
  · have hlP : lookupA (spreadU (cookieParse av) (cookieParse bv)) pr.1 = some pr.2 :=
      lookupA_of_mem_nodup hPnd hpr
    have hlP2 : lookupA (spreadU (cookieParse av) (cookieParse bv)) pr.1 = some w := by
      rw [lookupA_spreadU (cookieParse bv) (cookieParse av) pr.1 (fromEntries_keys_nodup _)]
      rw [hB]
    have hw : pr.2 = w := Option.some.inj (hlP.symm.trans hlP2)
    simp only [Function.comp_apply, hB, ← hw, Prod.mk.eta]

theorem acceptParse_canon (s : List Char) :
    ∀ e ∈ acceptParse s,
      e = acceptEntry e.2.2 ∧ trim e.2.2 = e.2.2 ∧ e.2.2 ≠ [] ∧ ',' ∉ e.2.2 := by
  intro e he
  rcases List.mem_map.mp (mem_fromEntries he) with ⟨item, hitem, rfl⟩
  obtain ⟨h1, h2, h3⟩ := listItems_props s item hitem
  exact ⟨rfl, h1, h2, h3⟩

theorem acceptMerge_idem (av bv : List Char) :
    acceptMerge (acceptMerge av bv) bv = acceptMerge av bv := by
  have hUnd : (keysOf (acceptUnion av bv)).Nodup :=
    spreadU_keys_nodup _ (fromEntries_keys_nodup _)
  have hperm : (acceptSorted av bv).Perm (acceptUnion av bv) :=
    sSort_perm qLe (acceptUnion av bv)
  have hSnd : (keysOf (acceptSorted av bv)).Nodup :=
    ((hperm.map Prod.fst).nodup_iff).mpr hUnd
  have hcanonS : ∀ e ∈ acceptSorted av bv,
      e = acceptEntry e.2.2 ∧ trim e.2.2 = e.2.2 ∧ e.2.2 ≠ [] ∧ ',' ∉ e.2.2 := by
    intro e he
    rcases mem_spreadU (hperm.mem_iff.mp he) with h | h
    · exact acceptParse_canon av e h
    · exact acceptParse_canon bv e h
  have hitems : listItems (acceptMerge av bv)
      = (acceptSorted av bv).map (fun e => e.2.2) := by
    rw [acceptMerge]
    apply listItems_interc
    intro p hp
    rcases List.mem_map.mp hp with ⟨e, he, rfl⟩
    exact (hcanonS e he).2
  have hparse : acceptParse (acceptMerge av bv) = acceptSorted av bv := by
    rw [acceptParse, hitems, List.map_map]
    have hmapid : (acceptSorted av bv).map (acceptEntry ∘ fun e => e.2.2)
        = (acceptSorted av bv).map id :=
      map_congr_mem _ _ _ (fun e he => ((hcanonS e he).1).symm)
    rw [hmapid, List.map_id]
    exact fromEntries_of_nodup _ hSnd
  have hsubk : ∀ k ∈ keysOf (acceptParse bv), k ∈ keysOf (acceptSorted av bv) := by
    intro k hk
    exact ((hperm.map Prod.fst).mem_iff).mpr (mem_keys_spreadU_right _ _ k hk)
  have hsp : spreadU (acceptSorted av bv) (acceptParse bv) = acceptSorted av bv := by
    rw [spreadU_sub (acceptParse bv) _ (fromEntries_keys_nodup _) hsubk]
    conv_rhs => rw [← List.map_id (acceptSorted av bv)]
    apply map_congr_mem
    intro pr hpr
    rcases hB : lookupA (acceptParse bv) pr.1 with _ | w
    · simp only [hB, id_eq]
    · have hlP : lookupA (acceptUnion av bv) pr.1 = some pr.2 := by
        rw [← lookupA_perm hperm hSnd pr.1]
        exact lookupA_of_mem_nodup hSnd hpr
      have hlP2 : lookupA (acceptUnion av bv) pr.1 = some w := by
        rw [show acceptUnion av bv
            = spreadU (acceptParse av) (acceptParse bv) from rfl,
          lookupA_spreadU (acceptParse bv) (acceptParse av) pr.1
            (fromEntries_keys_nodup _), hB]
      have hw : pr.2 = w := Option.some.inj (hlP.symm.trans hlP2)
      simp only [hB, ← hw, Prod.mk.eta, id_eq]
  have hfinal : acceptSorted (acceptMerge av bv) bv = acceptSorted av bv := by
    rw [acceptSorted, acceptUnion, hparse, hsp]
    exact sSort_of_pairwise (sSort_pairwise qLe_total qLe_trans (acceptUnion av bv))
  rw [show acceptMerge (acceptMerge av bv) bv
      = interc ", ".toList ((acceptSorted (acceptMerge av bv) bv).map (fun e => e.2.2))
      from rfl,
    hfinal]
  rfl

theorem contains_mem {B : Type} [DecidableEq B] (l : List B) (b : B) :
    l.contains b = true ↔ b ∈ l := by
  simp

theorem dedupBy_subset {K B : Type} [DecidableEq B] (key : K → B) (l : List K) :
    ∀ seen, ∀ x ∈ dedupBy key seen l, x ∈ l := by
  induction l with
  | nil =>
    intro seen x hx
    cases hx
  | cons y ys ih =>
    intro seen x hx
    rw [dedupBy] at hx
    by_cases hc : seen.contains (key y)
    · rw [if_pos hc] at hx
      exact List.mem_cons_of_mem y (ih seen x hx)
    · rw [if_neg hc] at hx
      rcases List.mem_cons.mp hx with rfl | hx
      · exact List.mem_cons_self x ys
      · exact List.mem_cons_of_mem y (ih _ x hx)

theorem dedupBy_notseen {K B : Type} [DecidableEq B] (key : K → B) (l : List K) :
    ∀ seen, ∀ x ∈ dedupBy key seen l, key x ∉ seen := by
  induction l with
  | nil =>
    intro seen x hx
    cases hx
  | cons y ys ih =>
    intro seen x hx
    rw [dedupBy] at hx
    by_cases hc : seen.contains (key y)
    · rw [if_pos hc] at hx
      exact ih seen x hx
    · rw [if_neg hc] at hx
      rcases List.mem_cons.mp hx with rfl | hx
      · exact fun hmem => hc ((contains_mem seen (key x)).mpr hmem)
      · exact fun hmem =>
          ih (key y :: seen) x hx (List.mem_cons_of_mem (key y) hmem)

theorem dedupBy_pairwise {K B : Type} [DecidableEq B] (key : K → B) (l : List K) :
    ∀ seen, (dedupBy key seen l).Pairwise (fun a b => key a ≠ key b) := by
  induction l with
  | nil =>
    intro seen
    exact List.Pairwise.nil
  | cons y ys ih =>
    intro seen
    rw [dedupBy]
    by_cases hc : seen.contains (key y)
    · rw [if_pos hc]
      exact ih seen
    · rw [if_neg hc]
      rw [List.pairwise_cons]
      refine ⟨?_, ih (key y :: seen)⟩
      intro b hb heq
      exact dedupBy_notseen key ys (key y :: seen) b hb (heq ▸ List.mem_cons_self _ _)

theorem dedupBy_coverage {K B : Type} [DecidableEq B] (key : K → B) (l : List K) :
    ∀ seen, ∀ x ∈ l, key x ∈ seen ∨ key x ∈ (dedupBy key seen l).map key := by
  induction l with
  | nil =>
    intro seen x hx
    cases hx
  | cons y ys ih =>
    intro seen x hx
    rw [dedupBy]
    by_cases hc : seen.contains (key y)
    · rw [if_pos hc]
      rcases List.mem_cons.mp hx with rfl | hx
      · exact Or.inl ((contains_mem seen (key x)).mp hc)
      · exact ih seen x hx
    · rw [if_neg hc]
      rcases List.mem_cons.mp hx with rfl | hx
      · exact Or.inr (by simp)
      · rcases ih (key y :: seen) x hx with h | h
        · rcases List.mem_cons.mp h with h | h
          · exact Or.inr (by simp [h])
          · exact Or.inl h
        · exact Or.inr (by simp [List.mem_map] at h ⊢; tauto)

theorem dedupBy_allseen {K B : Type} [DecidableEq B] (key : K → B) (l : List K) :
    ∀ seen, (∀ x ∈ l, key x ∈ seen) → dedupBy key seen l = [] := by
  induction l with
  | nil =>
    intro seen _
    rfl
  | cons y ys ih =>
    intro seen h
    rw [dedupBy, if_pos ((contains_mem seen (key y)).mpr (h y (by simp)))]
    exact ih seen (fun x hx => h x (by simp [hx]))

theorem dedupBy_append_drop {K B : Type} [DecidableEq B] (key : K → B)
    (l1 l2 : List K) : ∀ seen, l1.Pairwise (fun a b => key a ≠ key b) →
    (∀ x ∈ l1, key x ∉ seen) →
    (∀ x ∈ l2, key x ∈ seen ∨ key x ∈ l1.map key) →
    dedupBy key seen (l1 ++ l2) = l1 := by
  induction l1 with
  | nil =>
    intro seen _ _ hcov
    rw [List.nil_append]
    apply dedupBy_allseen
    intro x hx
    rcases hcov x hx with h | h
    · exact h
    · simp at h
  | cons d ds ih =>
    intro seen hpw hns hcov
    rw [List.cons_append, dedupBy]
    have hnc : ¬ seen.contains (key d) = true :=
      fun hc => hns d (by simp) ((contains_mem seen (key d)).mp hc)
    rw [if_neg hnc]
    rw [List.pairwise_cons] at hpw
    congr 1
    apply ih (key d :: seen) hpw.2
    · intro x hx hmem
      rcases List.mem_cons.mp hmem with h | h
      · exact hpw.1 x hx h.symm
      · exact hns x (List.mem_cons_of_mem d hx) h
    · intro x hx
      rcases hcov x hx with h | h
      · exact Or.inl (List.mem_cons_of_mem _ h)
      · rw [List.map_cons] at h
        rcases List.mem_cons.mp h with h | h
        · exact Or.inl (h ▸ List.mem_cons_self _ _)
        · exact Or.inr h

theorem defaultMerge_idem (av bv : List Char) :
    defaultMerge (defaultMerge av bv) bv = defaultMerge av bv := by
  have hsub : ∀ d ∈ dedupBy lowerL [] (listItems av ++ listItems bv),
      trim d = d ∧ d ≠ [] ∧ ',' ∉ d := by
    intro d hd
    rcases List.mem_append.mp (dedupBy_subset lowerL _ [] d hd) with h | h
    · exact listItems_props av d h
    · exact listItems_props bv d h
  have hitems : listItems (defaultMerge av bv)
      = dedupBy lowerL [] (listItems av ++ listItems bv) := by
    rw [defaultMerge]
    exact listItems_interc _ hsub
  rw [show defaultMerge (defaultMerge av bv) bv
      = interc ", ".toList (dedupBy lowerL []
          (listItems (defaultMerge av bv) ++ listItems bv)) from rfl,
    hitems]
  rw [dedupBy_append_drop lowerL _ (listItems bv) []
    (dedupBy_pairwise lowerL _ []) (fun x _ h => by cases h) ?_]
  · rfl
  · intro x hx
    rcases dedupBy_coverage lowerL (listItems av ++ listItems bv) [] x
        (List.mem_append_right _ hx) with h | h
    · cases h
    · exact Or.inr h

theorem truthy_some (o : Option (List Char)) (w : List Char)
    (h : truthy o = some w) : o = some w ∧ w ≠ [] := by
  rcases o with _ | s
  · cases h
  · rw [truthy] at h
    by_cases hs : s = []
    · rw [if_pos hs] at h
      cases h
    · rw [if_neg hs] at h
      obtain rfl := Option.some.inj h
      exact ⟨rfl, hs⟩

theorem truthy_pos (w : List Char) (h : w ≠ []) : truthy (some w) = some w := by
  rw [truthy, if_neg h]

theorem keyed_filterMap_keys_sub {K V : Type} [DecidableEq K] (f : K → Option V)
    (ks : List K) :
    ∀ k ∈ keysOf (ks.filterMap (fun x => (f x).map (fun v => (x, v)))), k ∈ ks := by
  intro k hk
  rw [keysOf] at hk
  rcases List.mem_map.mp hk with ⟨q, hq, rfl⟩
  rcases List.mem_filterMap.mp hq with ⟨a, ha, hfa⟩
  rcases hv : f a with _ | v <;> rw [hv] at hfa
  · cases hfa
  · rw [Option.map_some'] at hfa
    rw [← Option.some.inj hfa]
    exact ha

theorem keyed_filterMap_keys_nodup {K V : Type} [DecidableEq K] (f : K → Option V)
    (ks : List K) (h : ks.Nodup) :
    (keysOf (ks.filterMap (fun x => (f x).map (fun v => (x, v))))).Nodup := by
  induction ks with
  | nil => exact List.nodup_nil
  | cons x ks' ih =>
    rw [List.nodup_cons] at h
    rw [List.filterMap_cons]
    rcases hf : f x with _ | v
    · simp only [hf, Option.map_none']
      exact ih h.2
    · simp only [hf, Option.map_some']
      rw [show keysOf ((x, v) :: List.filterMap (fun x => (f x).map (fun v => (x, v))) ks')
          = x :: keysOf (List.filterMap (fun x => (f x).map (fun v => (x, v))) ks')
        from rfl]
      rw [List.nodup_cons]
      exact ⟨fun hmem => h.1 (keyed_filterMap_keys_sub f ks' x hmem), ih h.2⟩

theorem assoc_reconstruct {K V : Type} [DecidableEq K] (m : List (K × V))
    (f : K → Option V) (h : ∀ p ∈ m, f p.1 = some p.2) :
    (keysOf m).filterMap (fun k => (f k).map (fun v => (k, v))) = m := by
  induction m with
  | nil => rfl
  | cons p rest ih =>
    rw [show keysOf (p :: rest) = p.1 :: keysOf rest from rfl, List.filterMap_cons]
    simp only [h p (by simp), Option.map_some']
    rw [ih (fun q hq => h q (by simp [hq])), Prod.mk.eta]

theorem dedupBy_append_pass {K B : Type} [DecidableEq B] (key : K → B)
    (l1 l2 : List K) : ∀ seen, l1.Pairwise (fun a b => key a ≠ key b) →
    (∀ x ∈ l1, key x ∉ seen) →
    dedupBy key seen (l1 ++ l2)
      = l1 ++ dedupBy key ((l1.map key).reverse ++ seen) l2 := by
  induction l1 with
  | nil =>
    intro seen _ _
    rfl
  | cons d ds ih =>
    intro seen hpw hns
    rw [List.cons_append, dedupBy]
    have hnc : ¬ seen.contains (key d) = true :=
      fun hc => hns d (by simp) ((contains_mem seen (key d)).mp hc)
    rw [if_neg hnc]
    rw [List.pairwise_cons] at hpw
    have hns2 : ∀ x ∈ ds, key x ∉ key d :: seen := by
      intro x hx hmem
      rcases List.mem_cons.mp hmem with h | h
      · exact hpw.1 x hx h.symm
      · exact hns x (by simp [hx]) h
    have hseen : (((d :: ds).map key).reverse ++ seen)
        = ((ds.map key).reverse ++ (key d :: seen)) := by
      simp
    rw [hseen, ih (key d :: seen) hpw.2 hns2]
    rfl

theorem mergeValues_idem (aw bw k : List Char)
    (hck : k = cs "cookie" → hCookie aw = true ∧ hCookie bw = true)
    (hne : mergeValues aw bw k ≠ []) :
    mergeValues (mergeValues aw bw k) bw k = mergeValues aw bw k := by
  by_cases hc : k = cs "cookie"
  · obtain ⟨ha, hb⟩ := hck hc
    have hc2 : k = "cookie".toList := hc
    have hmv : mergeValues aw bw k = cookieMerge aw bw := by
      rw [mergeValues, if_pos hc2]
    have hmv2 : mergeValues (cookieMerge aw bw) bw k
        = cookieMerge (cookieMerge aw bw) bw := by
      rw [mergeValues, if_pos hc2]
    rw [hmv] at hne ⊢
    rw [hmv2]
    exact cookieMerge_idem aw bw ha hb hne
  · have hc2 : ¬ k = "cookie".toList := hc
    by_cases hacc : startsW "accept".toList k = true
    · have hmv : mergeValues aw bw k = acceptMerge aw bw := by
        rw [mergeValues, if_neg hc2, if_pos hacc]
      have hmv2 : mergeValues (acceptMerge aw bw) bw k
          = acceptMerge (acceptMerge aw bw) bw := by
        rw [mergeValues, if_neg hc2, if_pos hacc]
      rw [hmv, hmv2]
      exact acceptMerge_idem aw bw
    · have hmv : mergeValues aw bw k = defaultMerge aw bw := by
        rw [mergeValues, if_neg hc2, if_neg hacc]
      have hmv2 : mergeValues (defaultMerge aw bw) bw k
          = defaultMerge (defaultMerge aw bw) bw := by
        rw [mergeValues, if_neg hc2, if_neg hacc]
      rw [hmv, hmv2]
      exact defaultMerge_idem aw bw

/-- C6: `mergeHeaders` is idempotent in its second argument —
`merge(merge(a, b), b) = merge(a, b)` — for header sets whose names truthy
in `b` resolve to the `override` or `merge` strategy (never `multiValue`),
provided each merged value is non-empty, cookie values are `=`-simple, and
a name truthy only in `b` under the `merge` strategy has a self-stable
value (`mergeValues v v k = v`).  The technical side conditions are forced
by the source: an empty merge result is stored but then falsy on re-merge,
re-merging a `multiValue` name doubles it, `split("=", 2)` truncation can
change a cookie value on re-parse, and a request-only value is copied
verbatim on the first merge but combined with itself on the second. -/
theorem merge_idempotent_in_request (a b : List (List Char × List Char))
    (hstrat : ∀ k ∈ keysOf b, ∀ bw ∈ (truthy (lookupA b k)).toList,
      getStrategy k ≠ HStrategy.strMultiValue)
    (hshared : ∀ k ∈ keysOf b, ∀ aw ∈ (truthy (lookupA a k)).toList,
      ∀ bw ∈ (truthy (lookupA b k)).toList, getStrategy k = HStrategy.strMerge →
      mergeValues aw bw k ≠ [] ∧
        (k = cs "cookie" → hCookie aw = true ∧ hCookie bw = true))
    (hbonly : ∀ k ∈ keysOf b, truthy (lookupA a k) = none →
      ∀ bw ∈ (truthy (lookupA b k)).toList, getStrategy k = HStrategy.strMerge →
      mergeValues bw bw k = bw) :
    mergeHeadersModel (mergeHeadersModel a b) b = mergeHeadersModel a b := by
  have hMnd : (keysOf (mergeHeadersModel a b)).Nodup := by
    rw [mergeHeadersModel]
    exact keyed_filterMap_keys_nodup _ _ (dedupBy_id_nodup _ [])
  have hvals : ∀ p ∈ mergeHeadersModel a b,
      hdrValue (mergeHeadersModel a b) b p.1 = some p.2 := by
    intro p hp
    have hMv : lookupA (mergeHeadersModel a b) p.1 = some p.2 :=
      lookupA_of_mem_nodup hMnd hp
    have hlk := mergeHeadersModel_lookup a b p.1
    rw [hMv] at hlk
    have hp2 : hdrValue a b p.1 = some p.2 := by
      by_cases hk : p.1 ∈ keysOf a ++ keysOf b
      · rw [if_pos hk] at hlk
        exact hlk.symm
      · rw [if_neg hk] at hlk
        cases hlk
    rcases hA : truthy (lookupA a p.1) with _ | aw <;>
      rcases hB : truthy (lookupA b p.1) with _ | bw
    · simp only [hdrValue, hA, hB] at hp2
      exact Option.noConfusion hp2
    · simp only [hdrValue, hA, hB] at hp2
      have hval : p.2 = bw := (Option.some.inj hp2).symm
      obtain ⟨hlb, hbne⟩ := truthy_some (lookupA b p.1) bw hB
      have hkb : p.1 ∈ keysOf b := mem_keys_of_lookupA hlb
      have hbmem : bw ∈ (truthy (lookupA b p.1)).toList := by
        rw [hB]
        simp
      have htM : truthy (lookupA (mergeHeadersModel a b) p.1) = some p.2 := by
        rw [hMv]
        exact truthy_pos p.2 (by rw [hval]; exact hbne)
      rcases hs : getStrategy p.1 with _ | _ | _
      · simp only [hdrValue, htM, hB, hs]
        rw [hval]
      · exact absurd hs (hstrat p.1 hkb bw hbmem)
      · simp only [hdrValue, htM, hB, hs]
        rw [hval, hbonly p.1 hkb hA bw hbmem hs]
    · simp only [hdrValue, hA, hB] at hp2
      have hval : p.2 = aw := (Option.some.inj hp2).symm
      obtain ⟨hla, hane⟩ := truthy_some (lookupA a p.1) aw hA
      have htM : truthy (lookupA (mergeHeadersModel a b) p.1) = some p.2 := by
        rw [hMv]
        exact truthy_pos p.2 (by rw [hval]; exact hane)
      simp only [hdrValue, htM, hB]
    · simp only [hdrValue, hA, hB] at hp2
      obtain ⟨hlb, hbne⟩ := truthy_some (lookupA b p.1) bw hB
      have hkb : p.1 ∈ keysOf b := mem_keys_of_lookupA hlb
      have hbmem : bw ∈ (truthy (lookupA b p.1)).toList := by
        rw [hB]
        simp
      have hamem : aw ∈ (truthy (lookupA a p.1)).toList := by
        rw [hA]
        simp
      rcases hs : getStrategy p.1 with _ | _ | _
      · simp only [hs] at hp2
        have hval : p.2 = bw := (Option.some.inj hp2).symm
        have htM : truthy (lookupA (mergeHeadersModel a b) p.1) = some p.2 := by
          rw [hMv]
          exact truthy_pos p.2 (by rw [hval]; exact hbne)
        simp only [hdrValue, htM, hB, hs]
        rw [hval]
      · exact absurd hs (hstrat p.1 hkb bw hbmem)
      · simp only [hs] at hp2
        have hval : p.2 = mergeValues aw bw p.1 := (Option.some.inj hp2).symm
        obtain ⟨hne, hck⟩ := hshared p.1 hkb aw hamem bw hbmem hs
        have htM : truthy (lookupA (mergeHeadersModel a b) p.1) = some p.2 := by
          rw [hMv]
          exact truthy_pos p.2 (by rw [hval]; exact hne)
        simp only [hdrValue, htM, hB, hs]
        rw [hval, mergeValues_idem aw bw p.1 hck hne]
  have hMpw : (keysOf (mergeHeadersModel a b)).Pairwise (fun x y => id x ≠ id y) :=
    hMnd
  have hforall : ∀ k ∈ dedupBy id
      (((keysOf (mergeHeadersModel a b)).map id).reverse ++ []) (keysOf b),
      (hdrValue (mergeHeadersModel a b) b k).map (fun v => (k, v)) = none := by
    intro k hk
    have hknotM : k ∉ keysOf (mergeHeadersModel a b) := by
      have h2 := dedupBy_notseen id (keysOf b) _ k hk
      intro hmem
      exact h2 (by simp [hmem])
    have hkb : k ∈ keysOf b := dedupBy_subset id (keysOf b) _ k hk
    have hMk : lookupA (mergeHeadersModel a b) k = none :=
      (lookupA_eq_none _ k).mpr hknotM
    have hbk : truthy (lookupA b k) = none := by
      rcases ht : truthy (lookupA b k) with _ | bw
      · rfl
      · exfalso
        have hlookup := mergeHeadersModel_lookup a b k
        rw [if_pos (List.mem_append_right _ hkb), hMk] at hlookup
        rcases hA : truthy (lookupA a k) with _ | aw
        · simp only [hdrValue, hA, ht] at hlookup
          exact Option.noConfusion hlookup
        · simp only [hdrValue, hA, ht] at hlookup
          rcases hs : getStrategy k with _ | _ | _ <;> simp only [hs] at hlookup <;>
            exact Option.noConfusion hlookup
    have htM0 : truthy (lookupA (mergeHeadersModel a b) k) = none := by
      rw [hMk]
      rfl
    simp only [hdrValue, htM0, hbk, Option.map_none']
  rw [show mergeHeadersModel (mergeHeadersModel a b) b
      = (dedupBy id [] (keysOf (mergeHeadersModel a b) ++ keysOf b)).filterMap
          (fun k => (hdrValue (mergeHeadersModel a b) b k).map (fun v => (k, v)))
      from rfl]
  rw [dedupBy_append_pass id (keysOf (mergeHeadersModel a b)) (keysOf b) [] hMpw
    (fun x _ h => absurd h (by simp))]
  rw [List.filterMap_append]
  rw [assoc_reconstruct (mergeHeadersModel a b) (hdrValue (mergeHeadersModel a b) b)
    hvals]
  rw [List.filterMap_eq_nil_iff.mpr hforall, List.append_nil]

/-- Closed instance of `merge_idempotent_in_request`: a concrete pair of
header sets exercising the override, accept, cookie and default merge
paths, on which the hypotheses hold by computation. -/
theorem merge_idempotent_in_request_witness :
    mergeHeadersModel (mergeHeadersModel
        [(cs "accept", cs "a;q=0.5"), (cs "cookie", cs "x=1")]
        [(cs "accept", cs "b"), (cs "cookie", cs "x=2; y=3"),
         (cs "authorization", cs "t"), (cs "vary", cs "A, B")])
      [(cs "accept", cs "b"), (cs "cookie", cs "x=2; y=3"),
       (cs "authorization", cs "t"), (cs "vary", cs "A, B")]
      = mergeHeadersModel
        [(cs "accept", cs "a;q=0.5"), (cs "cookie", cs "x=1")]
        [(cs "accept", cs "b"), (cs "cookie", cs "x=2; y=3"),
         (cs "authorization", cs "t"), (cs "vary", cs "A, B")] :=
  merge_idempotent_in_request
    [(cs "accept", cs "a;q=0.5"), (cs "cookie", cs "x=1")]
    [(cs "accept", cs "b"), (cs "cookie", cs "x=2; y=3"),
     (cs "authorization", cs "t"), (cs "vary", cs "A, B")]
    (by decide) (by decide) (by decide)

/-- C6, counterexample to the literal claim: `a = {}` and
`b = {set-cookie: v}` share no header names at all, so every shared name
vacuously resolves to override or merge; yet `merge(merge(a, b), b)`
re-encounters `set-cookie` as a shared name, applies the `multiValue`
strategy, and doubles the value. -/
theorem merge_multivalue_reentry_breaks_idempotence :
    mergeHeadersModel (mergeHeadersModel [] [(cs "set-cookie", cs "v")])
        [(cs "set-cookie", cs "v")]
      = [(cs "set-cookie", cs "v, v")]
    ∧ mergeHeadersModel (mergeHeadersModel [] [(cs "set-cookie", cs "v")])
        [(cs "set-cookie", cs "v")]
      ≠ mergeHeadersModel [] [(cs "set-cookie", cs "v")] := by
  decide

end WefyModel
